import Mathlib

/-!
Shallow embedding of the FoodInsight edge inventory pipeline
(detection/inventory.py, detection/motion.py, privacy/pipeline.py,
admin/app.py as embedded in the Epic 1 user stories).

Modelling conventions:
- Python dict[int, str] with insertion order (active_tracks) is an
  association list of pairs, appended on insert, erased on del.
- defaultdict(int) (current_counts) and the disappeared_tracks dict are
  total functions with default 0; for disappeared_tracks a value of 0 is
  observationally identical to absence, since every stored value is
  positive (it is set to get(t, 0) + 1) and the only reads are
  get(t, 0) and a membership test guarding a del.
- datetime.utcnow timestamps are wall clock and are not modelled; event
  equality is on type, item, track_id and the two counts.
- cv2 frames and the cv2 calls cvtColor / GaussianBlur / absdiff are
  modelled by an arbitrary frame type together with a deterministic
  preprocessing function producing the grayscale pixel list, and by
  exact rational arithmetic for np.mean; the external YOLO/ByteTrack
  detector is a parameter of DetectionService.process_frame.
-/

namespace FoodInsight

/-- A tracked detection as produced by the tracker: bbox is the list
[x1, y1, x2, y2] in pixels. -/
structure TrackedDetection where
  track_id : Nat
  class_name : String
  bbox : List Int
deriving DecidableEq, Repr

/-- EventType from detection/inventory.py. -/
inductive EventType where
  | SNACK_TAKEN
  | SNACK_ADDED
deriving DecidableEq, Repr

/-- InventoryEvent from detection/inventory.py, without the wall-clock
timestamp field. -/
structure InventoryEvent where
  type : EventType
  item : String
  track_id : Nat
  count_before : Int
  count_after : Int
deriving DecidableEq, Repr

/-- InventoryDelta from detection/inventory.py, without the wall-clock
timestamp field. -/
structure InventoryDelta where
  machine_id : String
  inventory : String → Int
  events : List InventoryEvent

/-- The mutable state of InventoryStateManager. -/
structure InventoryStateManager where
  machine_id : String
  debounce_frames : Nat
  current_counts : String → Int
  active_tracks : List (Nat × String)
  pending_events : List InventoryEvent
  disappeared_tracks : Nat → Nat

/-- Lookup in the active_tracks dict. -/
def dictGet (t : Nat) : List (Nat × String) → Option String
  | [] => none
  | (k, c) :: rest => if t = k then some c else dictGet t rest

/-- del on the active_tracks dict. -/
def dictErase (t : Nat) : List (Nat × String) → List (Nat × String)
  | [] => []
  | (k, c) :: rest => if k = t then dictErase t rest else (k, c) :: dictErase t rest

/-- Pointwise update of the current_counts defaultdict. -/
def updCount (f : String → Int) (k : String) (v : Int) : String → Int :=
  fun c => if c = k then v else f c

/-- Pointwise update of the disappeared_tracks dict (0 encodes absence). -/
def updMiss (f : Nat → Nat) (k : Nat) (v : Nat) : Nat → Nat :=
  fun t => if t = k then v else f t

/-- The keys of an association list. -/
def dictKeys (l : List (Nat × String)) : List Nat :=
  l.map Prod.fst

/-- Number of active tracks carrying a given class name. -/
def classCount (l : List (Nat × String)) (cls : String) : Nat :=
  (l.filter (fun p => p.2 = cls)).length

/-- Body of the first loop of InventoryStateManager.update for one
detection: a new track_id is registered, its class count incremented and
a SNACK_ADDED event emitted; a known track_id is left untouched. -/
def processDetection (s : InventoryStateManager) (det : TrackedDetection) :
    InventoryStateManager × List InventoryEvent :=
  match dictGet det.track_id s.active_tracks with
  | some _ => (s, [])
  | none =>
      let before := s.current_counts det.class_name
      ({ s with
          active_tracks := s.active_tracks ++ [(det.track_id, det.class_name)],
          current_counts := updCount s.current_counts det.class_name (before + 1) },
        [{ type := EventType.SNACK_ADDED, item := det.class_name,
           track_id := det.track_id, count_before := before,
           count_after := before + 1 }])

/-- The first loop of InventoryStateManager.update over the detection
list, accumulating events in order. -/
def addPhase : InventoryStateManager → List TrackedDetection →
    InventoryStateManager × List InventoryEvent
  | s, [] => (s, [])
  | s, det :: rest =>
      let p := processDetection s det
      let q := addPhase p.1 rest
      (q.1, p.2 ++ q.2)

/-- Body of the disappearance loop for one snapshot entry (track_id,
class_name): a present track has its missing counter deleted; an absent
track has it incremented, and on reaching debounce_frames a SNACK_TAKEN
event fires, the class count is decremented floored at 0, and the track
is destroyed. -/
def processMissing (currentIds : List Nat) (s : InventoryStateManager)
    (entry : Nat × String) : InventoryStateManager × List InventoryEvent :=
  if entry.1 ∈ currentIds then
    ({ s with disappeared_tracks := updMiss s.disappeared_tracks entry.1 0 }, [])
  else
    let m := s.disappeared_tracks entry.1 + 1
    if s.debounce_frames ≤ m then
      let before := s.current_counts entry.2
      let after := max 0 (before - 1)
      ({ s with
          current_counts := updCount s.current_counts entry.2 after,
          active_tracks := dictErase entry.1 s.active_tracks,
          disappeared_tracks := updMiss s.disappeared_tracks entry.1 0 },
        [{ type := EventType.SNACK_TAKEN, item := entry.2, track_id := entry.1,
           count_before := before, count_after := after }])
    else
      ({ s with disappeared_tracks := updMiss s.disappeared_tracks entry.1 m }, [])

/-- The disappearance loop of InventoryStateManager.update, iterating
over the snapshot list(active_tracks.items()) taken after the first
loop. -/
def missLoop (currentIds : List Nat) : InventoryStateManager →
    List (Nat × String) → InventoryStateManager × List InventoryEvent
  | s, [] => (s, [])
  | s, entry :: rest =>
      let p := processMissing currentIds s entry
      let q := missLoop currentIds p.1 rest
      (q.1, p.2 ++ q.2)

/-- InventoryStateManager.update: the add loop, the disappearance loop
over the snapshot of active_tracks, then pending_events.extend(events);
returns the new state together with the returned event list. -/
def InventoryStateManager.update (s : InventoryStateManager)
    (detections : List TrackedDetection) :
    InventoryStateManager × List InventoryEvent :=
  let currentIds := detections.map TrackedDetection.track_id
  let p := addPhase s detections
  let q := missLoop currentIds p.1 p.1.active_tracks
  let events := p.2 ++ q.2
  ({ q.1 with pending_events := q.1.pending_events ++ events }, events)

/-- InventoryStateManager.get_delta: returns None when no events are
pending, otherwise a delta holding a copy of the counts and of the
pending events, and clears the pending list. -/
def InventoryStateManager.get_delta (s : InventoryStateManager) :
    Option InventoryDelta × InventoryStateManager :=
  if s.pending_events = [] then (none, s)
  else
    (some { machine_id := s.machine_id, inventory := s.current_counts,
            events := s.pending_events },
      { s with pending_events := [] })

/-- InventoryStateManager.__init__ (debounce_frames defaults to 10 in
the source). -/
def initState (machine_id : String) (debounce_frames : Nat) :
    InventoryStateManager :=
  { machine_id := machine_id, debounce_frames := debounce_frames,
    current_counts := fun _ => 0, active_tracks := [],
    pending_events := [], disappeared_tracks := fun _ => 0 }

/-- Iterated update calls, one per frame. -/
def updateRun (s : InventoryStateManager) :
    List (List TrackedDetection) → InventoryStateManager
  | [] => s
  | ds :: rest => updateRun (s.update ds).1 rest

/-- All events returned across a run of update calls, in order. -/
def updateRunEvents (s : InventoryStateManager) :
    List (List TrackedDetection) → List InventoryEvent
  | [] => []
  | ds :: rest => (s.update ds).2 ++ updateRunEvents (s.update ds).1 rest

/-- MotionDetector from detection/motion.py, generic over the raw frame
type F; the stored prev_frame is the preprocessed grayscale pixel list
(cv2.cvtColor followed by cv2.GaussianBlur with blur_size), which the
model receives as the deterministic function argument of detect. -/
structure MotionDetector (F : Type) where
  threshold : ℚ
  blur_size : Nat
  prev_frame : Option (List ℚ)

/-- np.mean of the absolute pixel difference of two equally shaped
frames (cv2.absdiff followed by np.mean), in exact arithmetic. -/
def meanAbsDiff (a b : List ℚ) : ℚ :=
  (List.zipWith (fun x y => |x - y|) a b).sum / (List.zipWith (fun x y => |x - y|) a b).length

/-- MotionDetector.detect: true on the first frame; otherwise compares
the normalized mean absolute difference against the threshold; the
stored frame is replaced on every call. -/
def MotionDetector.detect {F : Type} (pre : F → List ℚ)
    (md : MotionDetector F) (frame : F) : Bool × MotionDetector F :=
  let gray := pre frame
  match md.prev_frame with
  | none => (true, { md with prev_frame := some gray })
  | some prev =>
      let motion_score := meanAbsDiff prev gray / 255
      (decide (md.threshold < motion_score), { md with prev_frame := some gray })

/-- MotionDetector.reset. -/
def MotionDetector.reset {F : Type} (md : MotionDetector F) : MotionDetector F :=
  { md with prev_frame := none }

/-- An ROI rectangle as stored in config: x1, y1, x2, y2 in pixels. -/
structure Roi where
  x1 : Int
  y1 : Int
  x2 : Int
  y2 : Int
deriving DecidableEq, Repr

/-- PrivacyPipeline from privacy/pipeline.py. -/
structure PrivacyPipeline where
  blur_intensity : Nat
  roi : Option Roi
deriving DecidableEq, Repr

/-- PrivacyPipeline.set_roi: stores the given roi unconditionally. -/
def PrivacyPipeline.set_roi (p : PrivacyPipeline) (roi : Option Roi) :
    PrivacyPipeline :=
  { p with roi := roi }

/-- In-place mutation of bbox entries 0..3 by the roi offset, as the
loop body of adjust_detections performs it. -/
def adjustBBox (b : List Int) (dx dy : Int) : List Int :=
  match b with
  | b0 :: b1 :: b2 :: b3 :: rest => (b0 + dx) :: (b1 + dy) :: (b2 + dx) :: (b3 + dy) :: rest
  | other => other

/-- PrivacyPipeline.adjust_detections: returns the detections unchanged
when no roi is configured or when no offset argument is supplied (the
Python parameter offset defaults to None); otherwise shifts every bbox
by the roi top-left corner. -/
def PrivacyPipeline.adjust_detections (p : PrivacyPipeline)
    (detections : List TrackedDetection) (offset : Option (Int × Int)) :
    List TrackedDetection :=
  match p.roi, offset with
  | none, _ => detections
  | some _, none => detections
  | some roi, some _ =>
      detections.map (fun det => { det with bbox := adjustBBox det.bbox roi.x1 roi.y1 })

/-- PrivacyPipeline.crop_for_detection, generic over the frame type:
cropFn models the numpy slice frame[y1:y2, x1:x2]. -/
def PrivacyPipeline.crop_for_detection {F : Type} (cropFn : F → Roi → F)
    (p : PrivacyPipeline) (frame : F) : F :=
  match p.roi with
  | none => frame
  | some r => cropFn frame r

/-- The body of the POST /roi request from the admin UI. -/
structure RoiRequest where
  x1 : Int
  y1 : Int
  x2 : Int
  y2 : Int
deriving DecidableEq, Repr

/-- The roi part of the persisted config.json. -/
structure RoiConfig where
  roi : Option Roi
deriving DecidableEq, Repr

/-- save_roi route from admin/app.py: stores the posted coordinates in
the config without any validation and answers with status ok. -/
def save_roi (data : RoiRequest) (config : RoiConfig) : RoiConfig × String :=
  ({ config with roi := some { x1 := data.x1, y1 := data.y1, x2 := data.x2, y2 := data.y2 } },
    "ok")

/-- reset_roi route from admin/app.py. -/
def reset_roi (config : RoiConfig) : RoiConfig × String :=
  ({ config with roi := none }, "ok")

/-- DetectionService state from the E1-S8 integration snippet, generic
over the frame type. -/
structure DetectionService (F : Type) where
  motion : MotionDetector F
  inventory : InventoryStateManager
  privacy : PrivacyPipeline

/-- DetectionService.process_frame, detection path: crop to roi, motion
gate, run the external tracker on the cropped frame, call
adjust_detections with no offset argument (the Python call site passes
none, so the offset parameter keeps its None default), and feed the
result to the inventory manager. Returns the new service state and the
detection list handed to the inventory update; when the motion gate
declines, no detections are produced. -/
def DetectionService.process_frame {F : Type} (cropFn : F → Roi → F)
    (pre : F → List ℚ) (detect_and_track : F → List TrackedDetection)
    (svc : DetectionService F) (frame : F) :
    DetectionService F × List TrackedDetection :=
  let detection_frame := svc.privacy.crop_for_detection cropFn frame
  let gate := svc.motion.detect pre detection_frame
  if gate.1 then
    let dets := detect_and_track detection_frame
    let dets2 := svc.privacy.adjust_detections dets none
    let inv := svc.inventory.update dets2
    ({ svc with motion := gate.2, inventory := inv.1 }, dets2)
  else
    ({ svc with motion := gate.2 }, [])

/-- The counts-match-tracks invariant of the spec, together with key
uniqueness of the active_tracks dict (automatic for a Python dict). -/
def Inv (s : InventoryStateManager) : Prop :=
  (dictKeys s.active_tracks).Nodup ∧
  ∀ cls, s.current_counts cls = (classCount s.active_tracks cls : Int)

/-- All class counts are non-negative. -/
def NonnegCounts (s : InventoryStateManager) : Prop :=
  ∀ cls, 0 ≤ s.current_counts cls

/-- The detection ids of a call, in order. -/
def detIds (ds : List TrackedDetection) : List Nat :=
  ds.map TrackedDetection.track_id

/-- Conclusion of the immediate-addition claim for a detection d of a
fresh track in the call (s, ds): exactly one SNACK_ADDED event for d in
this call, the track registered afterwards, the class count up by
exactly one in the no-disappearance scenario, and no SNACK_ADDED ever
again while the track stays registered. -/
def AddedOnceSpec (s : InventoryStateManager) (ds : List TrackedDetection)
    (d : TrackedDetection) : Prop :=
  (∃ b, ((s.update ds).2).filter (fun e => e.track_id == d.track_id) =
    [{ type := EventType.SNACK_ADDED, item := d.class_name,
       track_id := d.track_id, count_before := b, count_after := b + 1 }]) ∧
  (∃ c, dictGet d.track_id (s.update ds).1.active_tracks = some c) ∧
  ((∀ d2 ∈ ds, d2.track_id ≠ d.track_id →
      ∃ c2, dictGet d2.track_id s.active_tracks = some c2) →
    (∀ p ∈ s.active_tracks, p.1 ∈ detIds ds) →
    (s.update ds).1.current_counts d.class_name =
      s.current_counts d.class_name + 1 ∧
    (∀ cls, cls ≠ d.class_name →
      (s.update ds).1.current_counts cls = s.current_counts cls)) ∧
  (∀ (s2 : InventoryStateManager) (ds2 : List TrackedDetection) (c2 : String),
    dictGet d.track_id s2.active_tracks = some c2 →
    ∀ e ∈ (s2.update ds2).2,
      ¬ (e.track_id = d.track_id ∧ e.type = EventType.SNACK_ADDED))

/-- Conclusion of the debounce-confirmation claim: across the first
debounce_frames - 1 absent calls no event mentions the track; the call
at the threshold emits exactly one SNACK_TAKEN with the floored
decrement, destroys the TrackState, resets its missing counter, yields
the exact count map in the no-other-change scenario, and no later call
ever mentions the track while it stays absent. -/
def DebounceRemovalSpec (s : InventoryStateManager)
    (dss : List (List TrackedDetection)) (dsD : List TrackedDetection)
    (t : Nat) (c : String) : Prop :=
  (∀ e ∈ updateRunEvents s dss, e.track_id ≠ t) ∧
  (∃ b, ((((updateRun s dss).update dsD).2).filter (fun e => e.track_id == t)) =
    [{ type := EventType.SNACK_TAKEN, item := c, track_id := t,
       count_before := b, count_after := max 0 (b - 1) }]) ∧
  dictGet t (((updateRun s dss).update dsD).1).active_tracks = none ∧
  (((updateRun s dss).update dsD).1).disappeared_tracks t = 0 ∧
  ((∀ d ∈ dsD, ∃ cd, dictGet d.track_id (updateRun s dss).active_tracks = some cd) →
    (∀ p ∈ (updateRun s dss).active_tracks, p.1 = t ∨ p.1 ∈ detIds dsD) →
    ((updateRun s dss).update dsD).1.current_counts =
      updCount (updateRun s dss).current_counts c
        (max 0 ((updateRun s dss).current_counts c - 1))) ∧
  (∀ dss2, (∀ ds2 ∈ dss2, t ∉ detIds ds2) →
    ∀ e ∈ updateRunEvents (((updateRun s dss).update dsD).1) dss2, e.track_id ≠ t)

/-- Conclusion of the debounce-suppression claim: a track absent for
the k calls of dss and present again in dsR produces no event at all,
leaves counts and active tracks exactly as before the first absence,
and has its missing counter reset to 0. -/
def ReappearNoChangeSpec (s : InventoryStateManager)
    (dss : List (List TrackedDetection)) (dsR : List TrackedDetection)
    (t : Nat) : Prop :=
  updateRunEvents s (dss ++ [dsR]) = [] ∧
  (updateRun s (dss ++ [dsR])).current_counts = s.current_counts ∧
  (updateRun s (dss ++ [dsR])).active_tracks = s.active_tracks ∧
  (updateRun s (dss ++ [dsR])).disappeared_tracks t = 0

/-- A sample detection used to instantiate proved theorems on concrete
inputs. -/
def witnessDet : TrackedDetection :=
  { track_id := 1, class_name := "apple", bbox := [0, 0, 10, 10] }

/-- The state after one frame containing witnessDet, starting from a
fresh manager. -/
def witnessState : InventoryStateManager :=
  ((initState "m" 10).update [witnessDet]).1

/-- A freshly constructed motion detector over a trivial frame type. -/
def motionW : MotionDetector Unit :=
  { threshold := 1 / 50, blur_size := 21, prev_frame := none }

/-- A valid pipeline region as in the E1-S7 scenario. -/
def roiExample : Roi := { x1 := 100, y1 := 50, x2 := 540, y2 := 400 }

/-- A pipeline configured with roiExample. -/
def priorPipeline : PrivacyPipeline :=
  { blur_intensity := 51, roi := some roiExample }

/-- A rectangle with negative width and height. -/
def malformedRoi : Roi := { x1 := 5, y1 := 5, x2 := 3, y2 := 2 }

/-- A detection as the tracker reports it on the cropped frame, in
region-local coordinates. -/
def detExample : TrackedDetection :=
  { track_id := 7, class_name := "apple", bbox := [10, 20, 30, 40] }

/-- A detection service whose pipeline carries roiExample. -/
def svcExample : DetectionService Unit :=
  { motion := { threshold := 1 / 50, blur_size := 21, prev_frame := none },
    inventory := initState "m" 10,
    privacy := { blur_intensity := 51, roi := some roiExample } }

theorem dictGet_eq_none {t : Nat} {l : List (Nat × String)} :
    dictGet t l = none ↔ ∀ p ∈ l, p.1 ≠ t := by
  induction l with
  | nil => simp [dictGet]
  | cons p rest ih =>
      obtain ⟨k, v⟩ := p
      by_cases h : t = k
      · subst h; simp [dictGet]
      · simp [dictGet, h, ih, Ne.symm h]

theorem dictGet_append_some {t : Nat} {c : String} {l₁ l₂ : List (Nat × String)}
    (h : dictGet t l₁ = some c) : dictGet t (l₁ ++ l₂) = some c := by
  induction l₁ with
  | nil => simp [dictGet] at h
  | cons p rest ih =>
      obtain ⟨k, v⟩ := p
      by_cases htk : t = k
      · simp [dictGet, htk] at h ⊢; exact h
      · simp [dictGet, htk] at h ⊢; exact ih h

theorem dictGet_append_none {t : Nat} {l₁ l₂ : List (Nat × String)}
    (h : dictGet t l₁ = none) : dictGet t (l₁ ++ l₂) = dictGet t l₂ := by
  induction l₁ with
  | nil => simp
  | cons p rest ih =>
      obtain ⟨k, v⟩ := p
      by_cases htk : t = k
      · simp [dictGet, htk] at h
      · simp [dictGet, htk] at h ⊢; exact ih h

theorem dictGet_eq_none_of_not_mem_keys {t : Nat} {l : List (Nat × String)}
    (h : t ∉ dictKeys l) : dictGet t l = none := by
  rw [dictGet_eq_none]
  intro p hp hpt
  exact h (hpt ▸ List.mem_map_of_mem Prod.fst hp)

theorem not_mem_keys_of_dictGet_eq_none {t : Nat} {l : List (Nat × String)}
    (h : dictGet t l = none) : t ∉ dictKeys l := by
  intro hmem
  obtain ⟨p, hp, hpt⟩ := List.mem_map.1 hmem
  exact (dictGet_eq_none.1 h p hp) hpt

theorem dictGet_some_mem {t : Nat} {c : String} {l : List (Nat × String)}
    (h : dictGet t l = some c) : (t, c) ∈ l := by
  induction l with
  | nil => simp [dictGet] at h
  | cons p rest ih =>
      obtain ⟨k, v⟩ := p
      by_cases htk : t = k
      · simp [dictGet, htk] at h; subst htk; subst h; exact List.mem_cons_self _ _
      · simp [dictGet, htk] at h; exact List.mem_cons_of_mem _ (ih h)

theorem dictGet_of_mem {t : Nat} {c : String} {l : List (Nat × String)}
    (hnd : (dictKeys l).Nodup) (h : (t, c) ∈ l) : dictGet t l = some c := by
  induction l with
  | nil => simp at h
  | cons p rest ih =>
      obtain ⟨k, v⟩ := p
      simp only [dictKeys, List.map_cons, List.nodup_cons] at hnd
      rcases List.mem_cons.1 h with h1 | h1
      · rw [← h1]; simp [dictGet]
      · have hk : t ≠ k := by
          intro he
          exact hnd.1 (he ▸ List.mem_map_of_mem Prod.fst h1)
        simp [dictGet, hk]
        exact ih hnd.2 h1

theorem dictGet_erase_ne {u t : Nat} {l : List (Nat × String)} (h : u ≠ t) :
    dictGet u (dictErase t l) = dictGet u l := by
  induction l with
  | nil => simp [dictErase]
  | cons p rest ih =>
      obtain ⟨k, v⟩ := p
      by_cases hkt : k = t
      · subst hkt
        simp [dictErase, dictGet, h, ih]
      · by_cases huk : u = k
        · subst huk; simp [dictErase, hkt, dictGet]
        · simp [dictErase, hkt, dictGet, huk, ih]

theorem dictGet_erase_self {t : Nat} {l : List (Nat × String)} :
    dictGet t (dictErase t l) = none := by
  induction l with
  | nil => simp [dictErase, dictGet]
  | cons p rest ih =>
      obtain ⟨k, v⟩ := p
      by_cases hkt : k = t
      · simp [dictErase, hkt, ih]
      · have htk : ¬ t = k := fun he => hkt he.symm
        simp [dictErase, hkt, dictGet, htk, ih]

theorem dictErase_of_not_mem {t : Nat} {l : List (Nat × String)}
    (h : t ∉ dictKeys l) : dictErase t l = l := by
  induction l with
  | nil => simp [dictErase]
  | cons p rest ih =>
      obtain ⟨k, v⟩ := p
      simp only [dictKeys, List.map_cons, List.mem_cons] at h
      push_neg at h
      simp [dictErase, Ne.symm h.1, ih h.2]

theorem dictKeys_erase_sublist (t : Nat) (l : List (Nat × String)) :
    (dictKeys (dictErase t l)).Sublist (dictKeys l) := by
  induction l with
  | nil => simp [dictErase, dictKeys]
  | cons p rest ih =>
      obtain ⟨k, v⟩ := p
      by_cases hkt : k = t
      · simp only [dictErase, hkt, if_pos rfl, dictKeys, List.map_cons]
        exact ih.cons _
      · simp only [dictErase, if_neg hkt, dictKeys, List.map_cons]
        exact ih.cons₂ _

theorem nodup_keys_erase {t : Nat} {l : List (Nat × String)}
    (h : (dictKeys l).Nodup) : (dictKeys (dictErase t l)).Nodup :=
  (dictKeys_erase_sublist t l).nodup h

theorem dictKeys_append (l₁ l₂ : List (Nat × String)) :
    dictKeys (l₁ ++ l₂) = dictKeys l₁ ++ dictKeys l₂ :=
  List.map_append _ _ _

theorem dict_decomp {t : Nat} {c : String} {l : List (Nat × String)}
    (hnd : (dictKeys l).Nodup) (h : dictGet t l = some c) :
    ∃ l₁ l₂, l = l₁ ++ (t, c) :: l₂ ∧ (∀ p ∈ l₁, p.1 ≠ t) ∧ (∀ p ∈ l₂, p.1 ≠ t) := by
  induction l with
  | nil => simp [dictGet] at h
  | cons p rest ih =>
      obtain ⟨k, v⟩ := p
      simp only [dictKeys, List.map_cons, List.nodup_cons] at hnd
      by_cases htk : t = k
      · subst htk
        simp [dictGet] at h
        subst h
        refine ⟨[], rest, by simp, by simp, ?_⟩
        intro p hp hpt
        exact hnd.1 (hpt ▸ List.mem_map_of_mem Prod.fst hp)
      · simp only [dictGet, if_neg htk] at h
        obtain ⟨l₁, l₂, hl, h1, h2⟩ := ih hnd.2 h
        exact ⟨(k, v) :: l₁, l₂, by simp [hl], by
          intro p hp
          rcases List.mem_cons.1 hp with h3 | h3
          · subst h3; exact fun he => htk he.symm
          · exact h1 p h3, h2⟩

theorem classCount_cons (p : Nat × String) (l : List (Nat × String)) (cls : String) :
    classCount (p :: l) cls = (if p.2 = cls then 1 else 0) + classCount l cls := by
  by_cases h : p.2 = cls <;> simp [classCount, h, Nat.add_comm]

theorem classCount_append (l₁ l₂ : List (Nat × String)) (cls : String) :
    classCount (l₁ ++ l₂) cls = classCount l₁ cls + classCount l₂ cls := by
  simp [classCount]

theorem classCount_erase {t : Nat} {c : String} {l : List (Nat × String)}
    (hnd : (dictKeys l).Nodup) (h : dictGet t l = some c) (cls : String) :
    classCount (dictErase t l) cls + (if c = cls then 1 else 0) = classCount l cls := by
  induction l with
  | nil => simp [dictGet] at h
  | cons p rest ih =>
      obtain ⟨k, v⟩ := p
      simp only [dictKeys, List.map_cons, List.nodup_cons] at hnd
      by_cases htk : t = k
      · subst htk
        simp [dictGet] at h
        subst h
        have hrest : dictErase t rest = rest :=
          dictErase_of_not_mem (by
            intro hmem
            exact hnd.1 hmem)
        simp [dictErase, hrest, classCount_cons]
        omega
      · simp only [dictGet, if_neg htk] at h
        have hkt : ¬ k = t := fun he => htk he.symm
        simp only [dictErase, if_neg hkt, classCount_cons]
        have := ih hnd.2 h
        omega

theorem classCount_pos {t : Nat} {c : String} {l : List (Nat × String)}
    (h : (t, c) ∈ l) : 0 < classCount l c := by
  induction l with
  | nil => simp at h
  | cons p rest ih =>
      rcases List.mem_cons.1 h with h1 | h1
      · subst h1; simp [classCount_cons]
      · have := ih h1
        rw [classCount_cons]
        omega

theorem processDetection_of_some {s : InventoryStateManager} {det : TrackedDetection}
    {c : String} (h : dictGet det.track_id s.active_tracks = some c) :
    processDetection s det = (s, []) := by
  simp [processDetection, h]

theorem processDetection_of_none {s : InventoryStateManager} {det : TrackedDetection}
    (h : dictGet det.track_id s.active_tracks = none) :
    processDetection s det =
      ({ s with
          active_tracks := s.active_tracks ++ [(det.track_id, det.class_name)],
          current_counts := updCount s.current_counts det.class_name
            (s.current_counts det.class_name + 1) },
        [{ type := EventType.SNACK_ADDED, item := det.class_name,
           track_id := det.track_id,
           count_before := s.current_counts det.class_name,
           count_after := s.current_counts det.class_name + 1 }]) := by
  simp [processDetection, h]

theorem processDetection_fields (s : InventoryStateManager) (det : TrackedDetection) :
    (processDetection s det).1.pending_events = s.pending_events ∧
    (processDetection s det).1.disappeared_tracks = s.disappeared_tracks ∧
    (processDetection s det).1.debounce_frames = s.debounce_frames ∧
    (processDetection s det).1.machine_id = s.machine_id := by
  rcases h : dictGet det.track_id s.active_tracks with _ | c
  · rw [processDetection_of_none h]
    exact ⟨rfl, rfl, rfl, rfl⟩
  · rw [processDetection_of_some h]
    exact ⟨rfl, rfl, rfl, rfl⟩

theorem processDetection_active_cases (s : InventoryStateManager) (det : TrackedDetection) :
    (processDetection s det).1.active_tracks = s.active_tracks ∨
    (processDetection s det).1.active_tracks =
      s.active_tracks ++ [(det.track_id, det.class_name)] := by
  rcases h : dictGet det.track_id s.active_tracks with _ | c
  · right; rw [processDetection_of_none h]
  · left; rw [processDetection_of_some h]

theorem processDetection_lookup_mono {s : InventoryStateManager} {det : TrackedDetection}
    {u : Nat} {c : String} (h : dictGet u s.active_tracks = some c) :
    dictGet u (processDetection s det).1.active_tracks = some c := by
  rcases processDetection_active_cases s det with h1 | h1
  · rw [h1]; exact h
  · rw [h1]; exact dictGet_append_some h

theorem processDetection_events_shape (s : InventoryStateManager) (det : TrackedDetection) :
    ∀ e ∈ (processDetection s det).2,
      e.type = EventType.SNACK_ADDED ∧ e.track_id = det.track_id := by
  rcases h : dictGet det.track_id s.active_tracks with _ | c
  · rw [processDetection_of_none h]
    intro e he
    simp at he
    subst he
    exact ⟨rfl, rfl⟩
  · rw [processDetection_of_some h]
    intro e he
    simp at he

theorem addPhase_fields (s : InventoryStateManager) (ds : List TrackedDetection) :
    (addPhase s ds).1.pending_events = s.pending_events ∧
    (addPhase s ds).1.disappeared_tracks = s.disappeared_tracks ∧
    (addPhase s ds).1.debounce_frames = s.debounce_frames ∧
    (addPhase s ds).1.machine_id = s.machine_id := by
  induction ds generalizing s with
  | nil => exact ⟨rfl, rfl, rfl, rfl⟩
  | cons det rest ih =>
      obtain ⟨h1, h2, h3, h4⟩ := ih (processDetection s det).1
      obtain ⟨g1, g2, g3, g4⟩ := processDetection_fields s det
      exact ⟨h1.trans g1, h2.trans g2, h3.trans g3, h4.trans g4⟩

theorem addPhase_active_append (s : InventoryStateManager) (ds : List TrackedDetection) :
    ∃ new, (addPhase s ds).1.active_tracks = s.active_tracks ++ new ∧
      ∀ p ∈ new, p.1 ∈ detIds ds := by
  induction ds generalizing s with
  | nil => exact ⟨[], by simp [addPhase], by simp⟩
  | cons det rest ih =>
      obtain ⟨new, hnew, hmem⟩ := ih (processDetection s det).1
      rcases processDetection_active_cases s det with h1 | h1
      · refine ⟨new, ?_, ?_⟩
        · show (addPhase (processDetection s det).1 rest).1.active_tracks = _
          rw [hnew, h1]
        · intro p hp
          simp [detIds]
          right
          simpa [detIds] using hmem p hp
      · refine ⟨(det.track_id, det.class_name) :: new, ?_, ?_⟩
        · show (addPhase (processDetection s det).1 rest).1.active_tracks = _
          rw [hnew, h1, List.append_assoc]
          rfl
        · intro p hp
          rcases List.mem_cons.1 hp with h2 | h2
          · subst h2; simp [detIds]
          · simp [detIds]
            right
            simpa [detIds] using hmem p h2

theorem addPhase_lookup_mono {s : InventoryStateManager} {ds : List TrackedDetection}
    {u : Nat} {c : String} (h : dictGet u s.active_tracks = some c) :
    dictGet u (addPhase s ds).1.active_tracks = some c := by
  obtain ⟨new, hnew, _⟩ := addPhase_active_append s ds
  rw [hnew]
  exact dictGet_append_some h

theorem addPhase_lookup_none {s : InventoryStateManager} {ds : List TrackedDetection}
    {t : Nat} (h : dictGet t s.active_tracks = none) (ht : t ∉ detIds ds) :
    dictGet t (addPhase s ds).1.active_tracks = none := by
  obtain ⟨new, hnew, hmem⟩ := addPhase_active_append s ds
  rw [hnew, dictGet_append_none h, dictGet_eq_none]
  intro p hp hpt
  exact ht (hpt ▸ hmem p hp)

theorem addPhase_events_shape (s : InventoryStateManager) (ds : List TrackedDetection) :
    ∀ e ∈ (addPhase s ds).2,
      e.type = EventType.SNACK_ADDED ∧ e.track_id ∈ detIds ds := by
  induction ds generalizing s with
  | nil => intro e he; simp [addPhase] at he
  | cons det rest ih =>
      intro e he
      rcases List.mem_append.1 he with h1 | h1
      · obtain ⟨ht, hid⟩ := processDetection_events_shape s det e h1
        exact ⟨ht, by simp [detIds, hid]⟩
      · obtain ⟨ht, hid⟩ := ih (processDetection s det).1 e h1
        refine ⟨ht, ?_⟩
        simp [detIds] at hid ⊢
        right
        exact hid

theorem addPhase_no_event_of_active {s : InventoryStateManager}
    {ds : List TrackedDetection} {t : Nat} {c : String}
    (h : dictGet t s.active_tracks = some c) :
    ∀ e ∈ (addPhase s ds).2, e.track_id ≠ t := by
  induction ds generalizing s with
  | nil => intro e he; simp [addPhase] at he
  | cons det rest ih =>
      intro e he
      rcases List.mem_append.1 he with h1 | h1
      · obtain ⟨_, hid⟩ := processDetection_events_shape s det e h1
        intro he2
        rw [he2] at hid
        rw [hid] at h
        rw [processDetection_of_some h] at h1
        simp at h1
      · exact ih (processDetection_lookup_mono h) e h1

theorem addPhase_mem_active {s : InventoryStateManager} {ds : List TrackedDetection}
    {d : TrackedDetection} (h : d ∈ ds) :
    ∃ c, dictGet d.track_id (addPhase s ds).1.active_tracks = some c := by
  induction ds generalizing s with
  | nil => simp at h
  | cons det rest ih =>
      rcases List.mem_cons.1 h with h1 | h1
      · subst h1
        rcases hg : dictGet d.track_id s.active_tracks with _ | c
        · refine ⟨d.class_name, ?_⟩
          show dictGet d.track_id (addPhase (processDetection s d).1 rest).1.active_tracks = _
          apply addPhase_lookup_mono
          rw [processDetection_of_none hg]
          show dictGet d.track_id (s.active_tracks ++ [(d.track_id, d.class_name)]) = _
          rw [dictGet_append_none hg]
          simp [dictGet]
        · refine ⟨c, ?_⟩
          show dictGet d.track_id (addPhase (processDetection s d).1 rest).1.active_tracks = _
          exact addPhase_lookup_mono (processDetection_lookup_mono hg)
      · exact ih h1

theorem addPhase_all_active {s : InventoryStateManager} {ds : List TrackedDetection}
    (h : ∀ d ∈ ds, ∃ c, dictGet d.track_id s.active_tracks = some c) :
    addPhase s ds = (s, []) := by
  induction ds with
  | nil => rfl
  | cons det rest ih =>
      obtain ⟨c, hc⟩ := h det (List.mem_cons_self _ _)
      have hpd := processDetection_of_some hc
      show (let p := processDetection s det
            let q := addPhase p.1 rest
            (q.1, p.2 ++ q.2)) = (s, [])
      rw [hpd]
      simp only
      rw [ih (fun d hd => h d (List.mem_cons_of_mem _ hd))]
      rfl

theorem addPhase_cons (s : InventoryStateManager) (det : TrackedDetection)
    (rest : List TrackedDetection) :
    addPhase s (det :: rest) =
      ((addPhase (processDetection s det).1 rest).1,
        (processDetection s det).2 ++ (addPhase (processDetection s det).1 rest).2) :=
  rfl

theorem addPhase_filter_added {s : InventoryStateManager} {ds : List TrackedDetection}
    {d : TrackedDetection} {t : Nat}
    (hnew : dictGet t s.active_tracks = none) (hd : d ∈ ds) (hid : d.track_id = t)
    (hnd : (detIds ds).Nodup) :
    ∃ b, ((addPhase s ds).2).filter (fun e => e.track_id == t) =
      [{ type := EventType.SNACK_ADDED, item := d.class_name, track_id := t,
         count_before := b, count_after := b + 1 }] := by
  induction ds generalizing s with
  | nil => simp at hd
  | cons x rest ih =>
      have hnd2 : (detIds rest).Nodup ∧ x.track_id ∉ detIds rest := by
        simp [detIds] at hnd ⊢
        exact ⟨hnd.2, hnd.1⟩
      by_cases hxt : x.track_id = t
      · have hdx : d = x := by
          rcases List.mem_cons.1 hd with h1 | h1
          · exact h1
          · exfalso
            apply hnd2.2
            rw [hxt, ← hid]
            exact List.mem_map_of_mem TrackedDetection.track_id h1
        subst hdx
        have hget : dictGet d.track_id s.active_tracks = none := hid.symm ▸ hnew
        refine ⟨s.current_counts d.class_name, ?_⟩
        rw [addPhase_cons]
        simp only [List.filter_append]
        have hsome : dictGet t (processDetection s d).1.active_tracks = some d.class_name := by
          rw [processDetection_of_none hget]
          show dictGet t (s.active_tracks ++ [(d.track_id, d.class_name)]) = _
          rw [dictGet_append_none hnew]
          simp [dictGet, hid.symm]
        have hrest := @addPhase_no_event_of_active _ rest _ _ hsome
        have htail : List.filter (fun e => e.track_id == t)
            (addPhase (processDetection s d).1 rest).2 = [] :=
          List.filter_eq_nil_iff.2 (by
            intro e he
            simp only [beq_iff_eq]
            exact hrest e he)
        rw [htail]
        rw [processDetection_of_none hget]
        simp [hid]
      · have hd2 : d ∈ rest := by
          rcases List.mem_cons.1 hd with h1 | h1
          · exact absurd (h1 ▸ hid) hxt
          · exact h1
        have hnone2 : dictGet t (processDetection s x).1.active_tracks = none := by
          rcases processDetection_active_cases s x with h1 | h1
          · rw [h1]; exact hnew
          · rw [h1, dictGet_append_none hnew]
            have htx : ¬ t = x.track_id := fun h => hxt h.symm
            simp [dictGet, htx]
        obtain ⟨b, hb⟩ := ih hnone2 hd2 hnd2.1
        refine ⟨b, ?_⟩
        rw [addPhase_cons]
        simp only [List.filter_append]
        rw [List.filter_eq_nil_iff.2 (by
          intro e he
          obtain ⟨_, heid⟩ := processDetection_events_shape s x e he
          simp only [beq_iff_eq]
          rw [heid]
          exact hxt), hb]
        simp

theorem addPhase_counts_only_new {s : InventoryStateManager} {ds : List TrackedDetection}
    {d : TrackedDetection} {t : Nat}
    (hnew : dictGet t s.active_tracks = none) (hd : d ∈ ds) (hid : d.track_id = t)
    (hnd : (detIds ds).Nodup)
    (hoth : ∀ d' ∈ ds, d'.track_id ≠ t → ∃ c, dictGet d'.track_id s.active_tracks = some c) :
    (addPhase s ds).1.current_counts =
      updCount s.current_counts d.class_name (s.current_counts d.class_name + 1) := by
  induction ds generalizing s with
  | nil => simp at hd
  | cons x rest ih =>
      have hnd2 : (detIds rest).Nodup ∧ x.track_id ∉ detIds rest := by
        simp [detIds] at hnd ⊢
        exact ⟨hnd.2, hnd.1⟩
      by_cases hxt : x.track_id = t
      · have hdx : d = x := by
          rcases List.mem_cons.1 hd with h1 | h1
          · exact h1
          · exfalso
            apply hnd2.2
            rw [hxt, ← hid]
            exact List.mem_map_of_mem TrackedDetection.track_id h1
        subst hdx
        have hget : dictGet d.track_id s.active_tracks = none := hid.symm ▸ hnew
        rw [addPhase_cons, processDetection_of_none hget]
        have hall : ∀ d' ∈ rest, ∃ c, dictGet d'.track_id
            ((processDetection s d).1).active_tracks = some c := by
          intro d' hd'
          have hne : d'.track_id ≠ t := by
            intro he
            apply hnd2.2
            rw [hid, ← he]
            exact List.mem_map_of_mem TrackedDetection.track_id hd'
          obtain ⟨c, hc⟩ := hoth d' (List.mem_cons_of_mem _ hd') hne
          exact ⟨c, processDetection_lookup_mono hc⟩
        rw [processDetection_of_none hget] at hall
        rw [addPhase_all_active hall]
      · have hd2 : d ∈ rest := by
          rcases List.mem_cons.1 hd with h1 | h1
          · exact absurd (h1 ▸ hid) hxt
          · exact h1
        obtain ⟨c, hc⟩ := hoth x (List.mem_cons_self _ _) hxt
        rw [addPhase_cons, processDetection_of_some hc]
        exact ih hnew hd2 hnd2.1
          (fun d' hd' hne => hoth d' (List.mem_cons_of_mem _ hd') hne)

theorem addPhase_nodup {s : InventoryStateManager} {ds : List TrackedDetection}
    (h : (dictKeys s.active_tracks).Nodup) :
    (dictKeys (addPhase s ds).1.active_tracks).Nodup := by
  induction ds generalizing s with
  | nil => exact h
  | cons det rest ih =>
      apply ih
      rcases hg : dictGet det.track_id s.active_tracks with _ | c
      · rw [processDetection_of_none hg]
        show (dictKeys (s.active_tracks ++ [(det.track_id, det.class_name)])).Nodup
        rw [dictKeys_append]
        rw [List.nodup_append]
        refine ⟨h, by simp [dictKeys], ?_⟩
        intro a ha hb
        simp [dictKeys] at hb
        subst hb
        exact not_mem_keys_of_dictGet_eq_none hg ha
      · rw [processDetection_of_some hg]
        exact h

theorem processMissing_present {ids : List Nat} {s : InventoryStateManager}
    {entry : Nat × String} (h : entry.1 ∈ ids) :
    processMissing ids s entry =
      ({ s with disappeared_tracks := updMiss s.disappeared_tracks entry.1 0 }, []) := by
  simp [processMissing, h]

theorem processMissing_fire {ids : List Nat} {s : InventoryStateManager}
    {entry : Nat × String} (h : entry.1 ∉ ids)
    (hfire : s.debounce_frames ≤ s.disappeared_tracks entry.1 + 1) :
    processMissing ids s entry =
      ({ s with
          current_counts := updCount s.current_counts entry.2
            (max 0 (s.current_counts entry.2 - 1)),
          active_tracks := dictErase entry.1 s.active_tracks,
          disappeared_tracks := updMiss s.disappeared_tracks entry.1 0 },
        [{ type := EventType.SNACK_TAKEN, item := entry.2, track_id := entry.1,
           count_before := s.current_counts entry.2,
           count_after := max 0 (s.current_counts entry.2 - 1) }]) := by
  simp [processMissing, h, hfire]

theorem processMissing_wait {ids : List Nat} {s : InventoryStateManager}
    {entry : Nat × String} (h : entry.1 ∉ ids)
    (hwait : ¬ s.debounce_frames ≤ s.disappeared_tracks entry.1 + 1) :
    processMissing ids s entry =
      ({ s with disappeared_tracks :=
          updMiss s.disappeared_tracks entry.1 (s.disappeared_tracks entry.1 + 1) }, []) := by
  simp [processMissing, h, hwait]

theorem processMissing_fields (ids : List Nat) (s : InventoryStateManager)
    (entry : Nat × String) :
    (processMissing ids s entry).1.pending_events = s.pending_events ∧
    (processMissing ids s entry).1.debounce_frames = s.debounce_frames ∧
    (processMissing ids s entry).1.machine_id = s.machine_id := by
  by_cases h : entry.1 ∈ ids
  · rw [processMissing_present h]; exact ⟨rfl, rfl, rfl⟩
  · by_cases hfire : s.debounce_frames ≤ s.disappeared_tracks entry.1 + 1
    · rw [processMissing_fire h hfire]; exact ⟨rfl, rfl, rfl⟩
    · rw [processMissing_wait h hfire]; exact ⟨rfl, rfl, rfl⟩

theorem missLoop_cons (ids : List Nat) (s : InventoryStateManager)
    (entry : Nat × String) (rest : List (Nat × String)) :
    missLoop ids s (entry :: rest) =
      ((missLoop ids (processMissing ids s entry).1 rest).1,
        (processMissing ids s entry).2 ++
          (missLoop ids (processMissing ids s entry).1 rest).2) :=
  rfl

theorem missLoop_append (ids : List Nat) (s : InventoryStateManager)
    (l₁ l₂ : List (Nat × String)) :
    missLoop ids s (l₁ ++ l₂) =
      ((missLoop ids (missLoop ids s l₁).1 l₂).1,
        (missLoop ids s l₁).2 ++ (missLoop ids (missLoop ids s l₁).1 l₂).2) := by
  induction l₁ generalizing s with
  | nil => simp [missLoop]
  | cons entry rest ih =>
      rw [List.cons_append, missLoop_cons ids s entry (rest ++ l₂), ih,
        missLoop_cons ids s entry rest]
      simp [List.append_assoc]

theorem missLoop_fields (ids : List Nat) (s : InventoryStateManager)
    (snap : List (Nat × String)) :
    (missLoop ids s snap).1.pending_events = s.pending_events ∧
    (missLoop ids s snap).1.debounce_frames = s.debounce_frames ∧
    (missLoop ids s snap).1.machine_id = s.machine_id := by
  induction snap generalizing s with
  | nil => exact ⟨rfl, rfl, rfl⟩
  | cons entry rest ih =>
      obtain ⟨h1, h2, h3⟩ := ih (processMissing ids s entry).1
      obtain ⟨g1, g2, g3⟩ := processMissing_fields ids s entry
      exact ⟨h1.trans g1, h2.trans g2, h3.trans g3⟩

theorem missLoop_events_taken (ids : List Nat) (s : InventoryStateManager)
    (snap : List (Nat × String)) :
    ∀ e ∈ (missLoop ids s snap).2,
      e.type = EventType.SNACK_TAKEN ∧ e.track_id ∈ snap.map Prod.fst ∧
        e.track_id ∉ ids := by
  induction snap generalizing s with
  | nil => intro e he; simp [missLoop] at he
  | cons entry rest ih =>
      intro e he
      rw [missLoop_cons] at he
      rcases List.mem_append.1 he with h1 | h1
      · by_cases hp : entry.1 ∈ ids
        · rw [processMissing_present hp] at h1; simp at h1
        · by_cases hfire : s.debounce_frames ≤ s.disappeared_tracks entry.1 + 1
          · rw [processMissing_fire hp hfire] at h1
            simp at h1
            subst h1
            exact ⟨rfl, by simp, hp⟩
          · rw [processMissing_wait hp hfire] at h1; simp at h1
      · obtain ⟨ht, hid, hni⟩ := ih (processMissing ids s entry).1 e h1
        exact ⟨ht, by simp [hid], hni⟩

theorem dictGet_erase_none {t u : Nat} {l : List (Nat × String)}
    (h : dictGet t l = none) : dictGet t (dictErase u l) = none := by
  by_cases htu : t = u
  · subst htu; exact dictGet_erase_self
  · rw [dictGet_erase_ne htu]; exact h

theorem missLoop_lookup_none_mono {ids : List Nat} {s : InventoryStateManager}
    {snap : List (Nat × String)} {t : Nat}
    (h : dictGet t s.active_tracks = none) :
    dictGet t (missLoop ids s snap).1.active_tracks = none := by
  induction snap generalizing s with
  | nil => exact h
  | cons entry rest ih =>
      rw [missLoop_cons]
      apply ih
      by_cases hp : entry.1 ∈ ids
      · rw [processMissing_present hp]; exact h
      · by_cases hfire : s.debounce_frames ≤ s.disappeared_tracks entry.1 + 1
        · rw [processMissing_fire hp hfire]
          exact dictGet_erase_none h
        · rw [processMissing_wait hp hfire]; exact h

theorem missLoop_nodup {ids : List Nat} {s : InventoryStateManager}
    {snap : List (Nat × String)}
    (h : (dictKeys s.active_tracks).Nodup) :
    (dictKeys (missLoop ids s snap).1.active_tracks).Nodup := by
  induction snap generalizing s with
  | nil => exact h
  | cons entry rest ih =>
      rw [missLoop_cons]
      apply ih
      by_cases hp : entry.1 ∈ ids
      · rw [processMissing_present hp]; exact h
      · by_cases hfire : s.debounce_frames ≤ s.disappeared_tracks entry.1 + 1
        · rw [processMissing_fire hp hfire]
          exact nodup_keys_erase h
        · rw [processMissing_wait hp hfire]; exact h

theorem missLoop_no_key {ids : List Nat} {s : InventoryStateManager}
    {snap : List (Nat × String)} {t : Nat}
    (h : ∀ p ∈ snap, p.1 ≠ t) :
    dictGet t (missLoop ids s snap).1.active_tracks = dictGet t s.active_tracks ∧
    (missLoop ids s snap).1.disappeared_tracks t = s.disappeared_tracks t ∧
    ∀ e ∈ (missLoop ids s snap).2, e.track_id ≠ t := by
  induction snap generalizing s with
  | nil => exact ⟨rfl, rfl, by intro e he; simp [missLoop] at he⟩
  | cons entry rest ih =>
      have hne : entry.1 ≠ t := h entry (List.mem_cons_self _ _)
      have hrest : ∀ p ∈ rest, p.1 ≠ t := fun p hp => h p (List.mem_cons_of_mem _ hp)
      rw [missLoop_cons]
      obtain ⟨i1, i2, i3⟩ := ih (s := (processMissing ids s entry).1) hrest
      have hstep :
          dictGet t (processMissing ids s entry).1.active_tracks =
            dictGet t s.active_tracks ∧
          (processMissing ids s entry).1.disappeared_tracks t = s.disappeared_tracks t ∧
          ∀ e ∈ (processMissing ids s entry).2, e.track_id ≠ t := by
        have htne : t ≠ entry.1 := fun he => hne he.symm
        by_cases hp : entry.1 ∈ ids
        · rw [processMissing_present hp]
          refine ⟨rfl, ?_, by intro e he; simp at he⟩
          show updMiss s.disappeared_tracks entry.1 0 t = _
          simp [updMiss, htne]
        · by_cases hfire : s.debounce_frames ≤ s.disappeared_tracks entry.1 + 1
          · rw [processMissing_fire hp hfire]
            refine ⟨?_, ?_, ?_⟩
            · show dictGet t (dictErase entry.1 s.active_tracks) = _
              exact dictGet_erase_ne htne
            · show updMiss s.disappeared_tracks entry.1 0 t = _
              simp [updMiss, htne]
            · intro e he
              simp at he
              subst he
              exact hne
          · rw [processMissing_wait hp hfire]
            refine ⟨rfl, ?_, by intro e he; simp at he⟩
            show updMiss s.disappeared_tracks entry.1 _ t = _
            simp [updMiss, htne]
      refine ⟨i1.trans hstep.1, i2.trans hstep.2.1, ?_⟩
      intro e he
      rcases List.mem_append.1 he with h1 | h1
      · exact hstep.2.2 e h1
      · exact i3 e h1

theorem missLoop_all_present {ids : List Nat} {s : InventoryStateManager}
    {snap : List (Nat × String)}
    (h : ∀ p ∈ snap, p.1 ∈ ids) :
    (missLoop ids s snap).1.active_tracks = s.active_tracks ∧
    (missLoop ids s snap).1.current_counts = s.current_counts ∧
    (missLoop ids s snap).2 = [] := by
  induction snap generalizing s with
  | nil => exact ⟨rfl, rfl, rfl⟩
  | cons entry rest ih =>
      have hp : entry.1 ∈ ids := h entry (List.mem_cons_self _ _)
      rw [missLoop_cons, processMissing_present hp]
      obtain ⟨i1, i2, i3⟩ := ih (fun p hp2 => h p (List.mem_cons_of_mem _ hp2))
      exact ⟨i1, i2, by simp [i3]⟩

theorem missLoop_no_fire {ids : List Nat} {s : InventoryStateManager}
    {snap : List (Nat × String)}
    (hnd : (snap.map Prod.fst).Nodup)
    (hcov : ∀ p ∈ snap, p.1 ∈ ids ∨ s.disappeared_tracks p.1 + 1 < s.debounce_frames) :
    (missLoop ids s snap).1.current_counts = s.current_counts ∧
    (missLoop ids s snap).1.active_tracks = s.active_tracks ∧
    (missLoop ids s snap).2 = [] ∧
    (∀ v, v ∉ snap.map Prod.fst →
      (missLoop ids s snap).1.disappeared_tracks v = s.disappeared_tracks v) ∧
    (∀ p ∈ snap,
      (p.1 ∈ ids → (missLoop ids s snap).1.disappeared_tracks p.1 = 0) ∧
      (p.1 ∉ ids → (missLoop ids s snap).1.disappeared_tracks p.1 =
        s.disappeared_tracks p.1 + 1)) := by
  induction snap generalizing s with
  | nil =>
      refine ⟨rfl, rfl, rfl, fun v _ => rfl, by intro p hp; simp at hp⟩
  | cons entry rest ih =>
      simp only [List.map_cons, List.nodup_cons] at hnd
      have hkey : entry.1 ∉ rest.map Prod.fst := hnd.1
      have hstep : ∃ v0,
          processMissing ids s entry =
            ({ s with disappeared_tracks := updMiss s.disappeared_tracks entry.1 v0 }, []) ∧
          (entry.1 ∈ ids → v0 = 0) ∧
          (entry.1 ∉ ids → v0 = s.disappeared_tracks entry.1 + 1) := by
        by_cases hp : entry.1 ∈ ids
        · exact ⟨0, processMissing_present hp, fun _ => rfl, fun hn => absurd hp hn⟩
        · have hlt : s.disappeared_tracks entry.1 + 1 < s.debounce_frames := by
            rcases hcov entry (List.mem_cons_self _ _) with h | h
            · exact absurd h hp
            · exact h
          have hwait : ¬ s.debounce_frames ≤ s.disappeared_tracks entry.1 + 1 := by omega
          exact ⟨s.disappeared_tracks entry.1 + 1, processMissing_wait hp hwait,
            fun hmem => absurd hmem hp, fun _ => rfl⟩
      obtain ⟨v0, hpm, hv1, hv2⟩ := hstep
      rw [missLoop_cons, hpm]
      have hcov2 : ∀ p ∈ rest, p.1 ∈ ids ∨
          (updMiss s.disappeared_tracks entry.1 v0) p.1 + 1 < s.debounce_frames := by
        intro p hp
        have hpne : p.1 ≠ entry.1 := by
          intro he
          exact hkey (he ▸ List.mem_map_of_mem Prod.fst hp)
        rcases hcov p (List.mem_cons_of_mem _ hp) with h | h
        · exact Or.inl h
        · right
          simpa [updMiss, hpne] using h
      obtain ⟨i1, i2, i3, i4, i5⟩ := ih (s :=
        { s with disappeared_tracks := updMiss s.disappeared_tracks entry.1 v0 })
        hnd.2 hcov2
      refine ⟨i1, i2, by simp [i3], ?_, ?_⟩
      · intro v hv
        simp only [List.map_cons, List.mem_cons] at hv
        push_neg at hv
        rw [i4 v hv.2]
        show updMiss s.disappeared_tracks entry.1 v0 v = _
        simp [updMiss, hv.1]
      · intro p hp
        rcases List.mem_cons.1 hp with h1 | h1
        · subst h1
          constructor
          · intro hmem
            rw [i4 _ hkey]
            show updMiss s.disappeared_tracks p.1 v0 p.1 = 0
            simp [updMiss, hv1 hmem]
          · intro hmem
            rw [i4 _ hkey]
            show updMiss s.disappeared_tracks p.1 v0 p.1 = _
            simp [updMiss, hv2 hmem]
        · have hpne : p.1 ≠ entry.1 := by
            intro he
            exact hkey (he ▸ List.mem_map_of_mem Prod.fst h1)
          obtain ⟨j1, j2⟩ := i5 p h1
          constructor
          · exact j1
          · intro hmem
            rw [j2 hmem]
            show updMiss s.disappeared_tracks entry.1 v0 p.1 + 1 = _
            simp [updMiss, hpne]

theorem missLoop_unique_miss {ids : List Nat} {s : InventoryStateManager}
    {l₁ l₂ : List (Nat × String)} {t : Nat} {c : String}
    (h1 : ∀ p ∈ l₁, p.1 ≠ t) (h2 : ∀ p ∈ l₂, p.1 ≠ t)
    (ht : t ∉ ids) (hfire : s.debounce_frames ≤ s.disappeared_tracks t + 1) :
    (∃ b, ((missLoop ids s (l₁ ++ (t, c) :: l₂)).2).filter
        (fun e => e.track_id == t) =
      [{ type := EventType.SNACK_TAKEN, item := c, track_id := t,
         count_before := b, count_after := max 0 (b - 1) }]) ∧
    dictGet t (missLoop ids s (l₁ ++ (t, c) :: l₂)).1.active_tracks = none ∧
    (missLoop ids s (l₁ ++ (t, c) :: l₂)).1.disappeared_tracks t = 0 := by
  obtain ⟨a1, a2, a3⟩ := @missLoop_no_key ids s l₁ t h1
  have hdeb : (missLoop ids s l₁).1.debounce_frames = s.debounce_frames :=
    (missLoop_fields ids s l₁).2.1
  have hfire2 : (missLoop ids s l₁).1.debounce_frames ≤
      (missLoop ids s l₁).1.disappeared_tracks t + 1 := by
    rw [hdeb, a2]; exact hfire
  have hpm := @processMissing_fire ids (missLoop ids s l₁).1 (t, c) ht hfire2
  rw [missLoop_append, missLoop_cons, hpm]
  set s1 := (missLoop ids s l₁).1 with hs1
  set s2 : InventoryStateManager :=
    { s1 with
        current_counts := updCount s1.current_counts c
          (max 0 (s1.current_counts c - 1)),
        active_tracks := dictErase t s1.active_tracks,
        disappeared_tracks := updMiss s1.disappeared_tracks t 0 } with hs2
  obtain ⟨b1, b2, b3⟩ := @missLoop_no_key ids s2 l₂ t h2
  have hget2 : dictGet t s2.active_tracks = none := by
    show dictGet t (dictErase t s1.active_tracks) = none
    exact dictGet_erase_self
  have hdis2 : s2.disappeared_tracks t = 0 := by
    show updMiss s1.disappeared_tracks t 0 t = 0
    simp [updMiss]
  have hf1 : List.filter (fun e => e.track_id == t) (missLoop ids s l₁).2 = [] :=
    List.filter_eq_nil_iff.2 (by
      intro e he
      simp only [beq_iff_eq]
      exact a3 e he)
  have hf3 : List.filter (fun e => e.track_id == t) (missLoop ids s2 l₂).2 = [] :=
    List.filter_eq_nil_iff.2 (by
      intro e he
      simp only [beq_iff_eq]
      exact b3 e he)
  refine ⟨⟨s1.current_counts c, ?_⟩, ?_, ?_⟩
  · simp only [List.filter_append]
    rw [hf1, hf3]
    simp
  · rw [b1]; exact hget2
  · rw [b2]; exact hdis2

theorem missLoop_fire_counts {ids : List Nat} {s : InventoryStateManager}
    {l₁ l₂ : List (Nat × String)} {t : Nat} {c : String}
    (h1 : ∀ p ∈ l₁, p.1 ∈ ids) (h2 : ∀ p ∈ l₂, p.1 ∈ ids)
    (ht : t ∉ ids) (hfire : s.debounce_frames ≤ s.disappeared_tracks t + 1) :
    (missLoop ids s (l₁ ++ (t, c) :: l₂)).1.current_counts =
      updCount s.current_counts c (max 0 (s.current_counts c - 1)) ∧
    (missLoop ids s (l₁ ++ (t, c) :: l₂)).2 =
      [{ type := EventType.SNACK_TAKEN, item := c, track_id := t,
         count_before := s.current_counts c,
         count_after := max 0 (s.current_counts c - 1) }] := by
  have h1ne : ∀ p ∈ l₁, p.1 ≠ t := by
    intro p hp he
    exact ht (he ▸ h1 p hp)
  obtain ⟨a1, a2, a3⟩ := @missLoop_no_key ids s l₁ t h1ne
  obtain ⟨c1, c2, c3⟩ := @missLoop_all_present ids s l₁ h1
  have hdeb : (missLoop ids s l₁).1.debounce_frames = s.debounce_frames :=
    (missLoop_fields ids s l₁).2.1
  have hfire2 : (missLoop ids s l₁).1.debounce_frames ≤
      (missLoop ids s l₁).1.disappeared_tracks t + 1 := by
    rw [hdeb, a2]; exact hfire
  have hpm := @processMissing_fire ids (missLoop ids s l₁).1 (t, c) ht hfire2
  rw [missLoop_append, missLoop_cons, hpm]
  set s1 := (missLoop ids s l₁).1 with hs1
  set s2 : InventoryStateManager :=
    { s1 with
        current_counts := updCount s1.current_counts c
          (max 0 (s1.current_counts c - 1)),
        active_tracks := dictErase t s1.active_tracks,
        disappeared_tracks := updMiss s1.disappeared_tracks t 0 } with hs2
  obtain ⟨d1, d2, d3⟩ := @missLoop_all_present ids s2 l₂ h2
  constructor
  · rw [d2]
    show updCount s1.current_counts c (max 0 (s1.current_counts c - 1)) = _
    rw [c2]
  · rw [c3, d3]
    simp [c2]

theorem missLoop_inv {ids : List Nat} {s : InventoryStateManager}
    {snap : List (Nat × String)}
    (hnd : (dictKeys s.active_tracks).Nodup)
    (hc : ∀ cls, s.current_counts cls = (classCount s.active_tracks cls : Int))
    (hsnap : ∀ p ∈ snap, dictGet p.1 s.active_tracks = some p.2)
    (hsnd : (snap.map Prod.fst).Nodup) :
    (dictKeys (missLoop ids s snap).1.active_tracks).Nodup ∧
    ∀ cls, (missLoop ids s snap).1.current_counts cls =
      (classCount (missLoop ids s snap).1.active_tracks cls : Int) := by
  induction snap generalizing s with
  | nil => exact ⟨hnd, hc⟩
  | cons entry rest ih =>
      simp only [List.map_cons, List.nodup_cons] at hsnd
      have hkey : entry.1 ∉ rest.map Prod.fst := hsnd.1
      have hrest_ne : ∀ p ∈ rest, p.1 ≠ entry.1 := by
        intro p hp he
        exact hkey (he ▸ List.mem_map_of_mem Prod.fst hp)
      rw [missLoop_cons]
      by_cases hp : entry.1 ∈ ids
      · rw [processMissing_present hp]
        exact ih hnd hc (fun p hp2 => hsnap p (List.mem_cons_of_mem _ hp2)) hsnd.2
      · by_cases hfire : s.debounce_frames ≤ s.disappeared_tracks entry.1 + 1
        · rw [processMissing_fire hp hfire]
          have hmem : (entry.1, entry.2) ∈ s.active_tracks :=
            dictGet_some_mem (hsnap entry (List.mem_cons_self _ _))
          have hposc : 0 < classCount s.active_tracks entry.2 := classCount_pos hmem
          have herase := classCount_erase hnd (hsnap entry (List.mem_cons_self _ _))
          apply ih
          · exact nodup_keys_erase hnd
          · intro cls
            show updCount s.current_counts entry.2
              (max 0 (s.current_counts entry.2 - 1)) cls =
                (classCount (dictErase entry.1 s.active_tracks) cls : Int)
            by_cases hcls : cls = entry.2
            · rw [hcls]
              simp [updCount]
              have h3 := herase entry.2
              simp at h3
              have h4 := hc entry.2
              omega
            · have h3 := herase cls
              have hc2 : ¬ entry.2 = cls := fun he => hcls he.symm
              simp only [if_neg hc2, Nat.add_zero] at h3
              simp only [updCount, if_neg hcls]
              rw [hc cls, h3]
          · intro p hp2
            show dictGet p.1 (dictErase entry.1 s.active_tracks) = some p.2
            rw [dictGet_erase_ne (hrest_ne p hp2)]
            exact hsnap p (List.mem_cons_of_mem _ hp2)
          · exact hsnd.2
        · rw [processMissing_wait hp hfire]
          exact ih hnd hc (fun p hp2 => hsnap p (List.mem_cons_of_mem _ hp2)) hsnd.2

theorem missLoop_unique_wait {ids : List Nat} {s : InventoryStateManager}
    {l₁ l₂ : List (Nat × String)} {t : Nat} {c : String}
    (h1 : ∀ p ∈ l₁, p.1 ≠ t) (h2 : ∀ p ∈ l₂, p.1 ≠ t)
    (ht : t ∉ ids) (hwait : ¬ s.debounce_frames ≤ s.disappeared_tracks t + 1) :
    dictGet t (missLoop ids s (l₁ ++ (t, c) :: l₂)).1.active_tracks =
      dictGet t s.active_tracks ∧
    (missLoop ids s (l₁ ++ (t, c) :: l₂)).1.disappeared_tracks t =
      s.disappeared_tracks t + 1 ∧
    ∀ e ∈ (missLoop ids s (l₁ ++ (t, c) :: l₂)).2, e.track_id ≠ t := by
  obtain ⟨a1, a2, a3⟩ := @missLoop_no_key ids s l₁ t h1
  have hdeb : (missLoop ids s l₁).1.debounce_frames = s.debounce_frames :=
    (missLoop_fields ids s l₁).2.1
  have hwait2 : ¬ (missLoop ids s l₁).1.debounce_frames ≤
      (missLoop ids s l₁).1.disappeared_tracks t + 1 := by
    rw [hdeb, a2]; exact hwait
  have hpm := @processMissing_wait ids (missLoop ids s l₁).1 (t, c) ht hwait2
  rw [missLoop_append, missLoop_cons, hpm]
  set s1 := (missLoop ids s l₁).1 with hs1
  set s2 : InventoryStateManager :=
    { s1 with disappeared_tracks :=
        updMiss s1.disappeared_tracks t (s1.disappeared_tracks t + 1) } with hs2
  obtain ⟨b1, b2, b3⟩ := @missLoop_no_key ids s2 l₂ t h2
  refine ⟨?_, ?_, ?_⟩
  · rw [b1]
    show dictGet t s1.active_tracks = _
    rw [a1]
  · rw [b2]
    show updMiss s1.disappeared_tracks t (s1.disappeared_tracks t + 1) t = _
    simp [updMiss, a2]
  · intro e he
    rcases List.mem_append.1 he with hm | hm
    · exact a3 e hm
    · rcases List.mem_append.1 hm with hm2 | hm2
      · simp at hm2
      · exact b3 e hm2

theorem update_events (s : InventoryStateManager) (ds : List TrackedDetection) :
    (s.update ds).2 =
      (addPhase s ds).2 ++
        (missLoop (detIds ds) (addPhase s ds).1 (addPhase s ds).1.active_tracks).2 :=
  rfl

theorem update_active (s : InventoryStateManager) (ds : List TrackedDetection) :
    (s.update ds).1.active_tracks =
      (missLoop (detIds ds) (addPhase s ds).1
        (addPhase s ds).1.active_tracks).1.active_tracks :=
  rfl

theorem update_counts (s : InventoryStateManager) (ds : List TrackedDetection) :
    (s.update ds).1.current_counts =
      (missLoop (detIds ds) (addPhase s ds).1
        (addPhase s ds).1.active_tracks).1.current_counts :=
  rfl

theorem update_disappeared (s : InventoryStateManager) (ds : List TrackedDetection) :
    (s.update ds).1.disappeared_tracks =
      (missLoop (detIds ds) (addPhase s ds).1
        (addPhase s ds).1.active_tracks).1.disappeared_tracks :=
  rfl

theorem update_debounce (s : InventoryStateManager) (ds : List TrackedDetection) :
    (s.update ds).1.debounce_frames = s.debounce_frames := by
  show (missLoop (detIds ds) (addPhase s ds).1
    (addPhase s ds).1.active_tracks).1.debounce_frames = _
  rw [(missLoop_fields _ _ _).2.1, (addPhase_fields _ _).2.2.1]

theorem update_machine (s : InventoryStateManager) (ds : List TrackedDetection) :
    (s.update ds).1.machine_id = s.machine_id := by
  show (missLoop (detIds ds) (addPhase s ds).1
    (addPhase s ds).1.active_tracks).1.machine_id = _
  rw [(missLoop_fields _ _ _).2.2, (addPhase_fields _ _).2.2.2]

theorem update_pending (s : InventoryStateManager) (ds : List TrackedDetection) :
    (s.update ds).1.pending_events = s.pending_events ++ (s.update ds).2 := by
  show (missLoop (detIds ds) (addPhase s ds).1
      (addPhase s ds).1.active_tracks).1.pending_events ++ (s.update ds).2 = _
  rw [(missLoop_fields _ _ _).1, (addPhase_fields _ _).1]

theorem update_nodup {s : InventoryStateManager} {ds : List TrackedDetection}
    (h : (dictKeys s.active_tracks).Nodup) :
    (dictKeys (s.update ds).1.active_tracks).Nodup := by
  rw [update_active]
  exact missLoop_nodup (addPhase_nodup h)

theorem update_no_added_of_active {s : InventoryStateManager}
    {ds : List TrackedDetection} {t : Nat} {c : String}
    (h : dictGet t s.active_tracks = some c) :
    ∀ e ∈ (s.update ds).2, ¬ (e.track_id = t ∧ e.type = EventType.SNACK_ADDED) := by
  intro e he
  rw [update_events] at he
  rcases List.mem_append.1 he with h1 | h1
  · intro hc2
    exact addPhase_no_event_of_active h e h1 hc2.1
  · intro hc2
    have := (missLoop_events_taken _ _ _ e h1).1
    rw [hc2.2] at this
    exact EventType.noConfusion this

theorem update_absent_step {s : InventoryStateManager} {ds : List TrackedDetection}
    {t : Nat} {c : String}
    (hget : dictGet t s.active_tracks = some c)
    (hnd : (dictKeys s.active_tracks).Nodup)
    (hids : t ∉ detIds ds)
    (hlt : s.disappeared_tracks t + 1 < s.debounce_frames) :
    dictGet t (s.update ds).1.active_tracks = some c ∧
    (s.update ds).1.disappeared_tracks t = s.disappeared_tracks t + 1 ∧
    (∀ e ∈ (s.update ds).2, e.track_id ≠ t) := by
  have hget1 : dictGet t (addPhase s ds).1.active_tracks = some c :=
    addPhase_lookup_mono hget
  have hnd1 : (dictKeys (addPhase s ds).1.active_tracks).Nodup := addPhase_nodup hnd
  obtain ⟨l₁, l₂, hdec, h1, h2⟩ := dict_decomp hnd1 hget1
  have hdis1 : (addPhase s ds).1.disappeared_tracks = s.disappeared_tracks :=
    (addPhase_fields s ds).2.1
  have hdeb1 : (addPhase s ds).1.debounce_frames = s.debounce_frames :=
    (addPhase_fields s ds).2.2.1
  have hwait : ¬ (addPhase s ds).1.debounce_frames ≤
      (addPhase s ds).1.disappeared_tracks t + 1 := by
    rw [hdis1, hdeb1]; omega
  have hloop := @missLoop_unique_wait (detIds ds) (addPhase s ds).1 l₁ l₂ t c
    h1 h2 hids hwait
  rw [← hdec] at hloop
  refine ⟨?_, ?_, ?_⟩
  · rw [update_active, hloop.1]
    exact hget1
  · rw [update_disappeared, hloop.2.1, hdis1]
  · intro e he
    rw [update_events] at he
    rcases List.mem_append.1 he with hm | hm
    · intro he2
      exact hids (he2 ▸ (addPhase_events_shape s ds e hm).2)
    · exact hloop.2.2 e hm

theorem update_fire_step {s : InventoryStateManager} {ds : List TrackedDetection}
    {t : Nat} {c : String}
    (hget : dictGet t s.active_tracks = some c)
    (hnd : (dictKeys s.active_tracks).Nodup)
    (hids : t ∉ detIds ds)
    (hge : s.debounce_frames ≤ s.disappeared_tracks t + 1) :
    (∃ b, ((s.update ds).2).filter (fun e => e.track_id == t) =
      [{ type := EventType.SNACK_TAKEN, item := c, track_id := t,
         count_before := b, count_after := max 0 (b - 1) }]) ∧
    dictGet t (s.update ds).1.active_tracks = none ∧
    (s.update ds).1.disappeared_tracks t = 0 := by
  have hget1 : dictGet t (addPhase s ds).1.active_tracks = some c :=
    addPhase_lookup_mono hget
  have hnd1 : (dictKeys (addPhase s ds).1.active_tracks).Nodup := addPhase_nodup hnd
  obtain ⟨l₁, l₂, hdec, h1, h2⟩ := dict_decomp hnd1 hget1
  have hdis1 : (addPhase s ds).1.disappeared_tracks = s.disappeared_tracks :=
    (addPhase_fields s ds).2.1
  have hdeb1 : (addPhase s ds).1.debounce_frames = s.debounce_frames :=
    (addPhase_fields s ds).2.2.1
  have hfire : (addPhase s ds).1.debounce_frames ≤
      (addPhase s ds).1.disappeared_tracks t + 1 := by
    rw [hdis1, hdeb1]; exact hge
  have hloop := @missLoop_unique_miss (detIds ds) (addPhase s ds).1 l₁ l₂ t c
    h1 h2 hids hfire
  rw [← hdec] at hloop
  obtain ⟨⟨b, hb⟩, hact, hdis⟩ := hloop
  refine ⟨⟨b, ?_⟩, ?_, ?_⟩
  · rw [update_events, List.filter_append]
    rw [List.filter_eq_nil_iff.2 (by
      intro e he
      simp only [beq_iff_eq]
      intro he2
      exact hids (he2 ▸ (addPhase_events_shape s ds e he).2)), hb]
    simp
  · rw [update_active]; exact hact
  · rw [update_disappeared]; exact hdis

theorem update_absent_removed {s : InventoryStateManager} {ds : List TrackedDetection}
    {t : Nat}
    (hget : dictGet t s.active_tracks = none)
    (hids : t ∉ detIds ds) :
    dictGet t (s.update ds).1.active_tracks = none ∧
    (∀ e ∈ (s.update ds).2, e.track_id ≠ t) := by
  have hget1 : dictGet t (addPhase s ds).1.active_tracks = none :=
    addPhase_lookup_none hget hids
  refine ⟨?_, ?_⟩
  · rw [update_active]
    exact missLoop_lookup_none_mono hget1
  · intro e he
    rw [update_events] at he
    rcases List.mem_append.1 he with hm | hm
    · intro he2
      exact hids (he2 ▸ (addPhase_events_shape s ds e hm).2)
    · intro he2
      have hmem := (missLoop_events_taken _ _ _ e hm).2.1
      rw [he2] at hmem
      exact not_mem_keys_of_dictGet_eq_none hget1 hmem

theorem update_no_change_step {s : InventoryStateManager} {ds : List TrackedDetection}
    {t : Nat}
    (hnd : (dictKeys s.active_tracks).Nodup)
    (hall : ∀ d ∈ ds, ∃ cd, dictGet d.track_id s.active_tracks = some cd)
    (hcov : ∀ p ∈ s.active_tracks,
      p.1 ∈ detIds ds ∨ (p.1 = t ∧ s.disappeared_tracks t + 1 < s.debounce_frames)) :
    (s.update ds).1.current_counts = s.current_counts ∧
    (s.update ds).1.active_tracks = s.active_tracks ∧
    (s.update ds).2 = [] ∧
    (t ∈ dictKeys s.active_tracks →
      (t ∈ detIds ds → (s.update ds).1.disappeared_tracks t = 0) ∧
      (t ∉ detIds ds →
        (s.update ds).1.disappeared_tracks t = s.disappeared_tracks t + 1)) := by
  have hadd := addPhase_all_active hall
  have hsnap : (addPhase s ds).1 = s := by rw [hadd]
  have hcov2 : ∀ p ∈ s.active_tracks, p.1 ∈ detIds ds ∨
      s.disappeared_tracks p.1 + 1 < s.debounce_frames := by
    intro p hp
    rcases hcov p hp with h | h
    · exact Or.inl h
    · exact Or.inr (h.1 ▸ h.2)
  obtain ⟨i1, i2, i3, i4, i5⟩ := @missLoop_no_fire (detIds ds) s
    s.active_tracks hnd hcov2
  refine ⟨?_, ?_, ?_, ?_⟩
  · rw [update_counts, hsnap, i1]
  · rw [update_active, hsnap, i2]
  · rw [update_events, hsnap, hadd]
    simpa using i3
  · intro hmem
    obtain ⟨p, hp, hpt⟩ := List.mem_map.1 hmem
    obtain ⟨j1, j2⟩ := i5 p hp
    constructor
    · intro hin
      rw [update_disappeared, hsnap]
      rw [hpt] at j1
      exact j1 hin
    · intro hnin
      rw [update_disappeared, hsnap]
      rw [hpt] at j2
      exact j2 hnin

theorem updateRun_cons (s : InventoryStateManager) (ds : List TrackedDetection)
    (rest : List (List TrackedDetection)) :
    updateRun s (ds :: rest) = updateRun (s.update ds).1 rest :=
  rfl

theorem updateRunEvents_cons (s : InventoryStateManager) (ds : List TrackedDetection)
    (rest : List (List TrackedDetection)) :
    updateRunEvents s (ds :: rest) =
      (s.update ds).2 ++ updateRunEvents (s.update ds).1 rest :=
  rfl

theorem updateRun_absent {t : Nat} {c : String} :
    ∀ (dss : List (List TrackedDetection)) (s : InventoryStateManager),
      dictGet t s.active_tracks = some c →
      (dictKeys s.active_tracks).Nodup →
      (∀ ds ∈ dss, t ∉ detIds ds) →
      s.disappeared_tracks t + dss.length < s.debounce_frames →
      dictGet t (updateRun s dss).active_tracks = some c ∧
      (dictKeys (updateRun s dss).active_tracks).Nodup ∧
      (updateRun s dss).disappeared_tracks t =
        s.disappeared_tracks t + dss.length ∧
      (updateRun s dss).debounce_frames = s.debounce_frames ∧
      ∀ e ∈ updateRunEvents s dss, e.track_id ≠ t := by
  intro dss
  induction dss with
  | nil =>
      intro s hget hnd _ _
      exact ⟨hget, hnd, rfl, rfl, by intro e he; simp [updateRunEvents] at he⟩
  | cons ds rest ih =>
      intro s hget hnd habs hlen
      have hids : t ∉ detIds ds := habs ds (List.mem_cons_self _ _)
      have hlt : s.disappeared_tracks t + 1 < s.debounce_frames := by
        simp only [List.length_cons] at hlen
        omega
      obtain ⟨g1, g2, g3⟩ := update_absent_step hget hnd hids hlt
      have hnd2 := @update_nodup _ ds hnd
      have hdeb := update_debounce s ds
      obtain ⟨i1, i2, i3, i4, i5⟩ := ih (s.update ds).1 g1 hnd2
        (fun ds2 h2 => habs ds2 (List.mem_cons_of_mem _ h2))
        (by
          rw [g2, hdeb]
          simp only [List.length_cons] at hlen
          omega)
      rw [updateRun_cons, updateRunEvents_cons]
      refine ⟨i1, i2, ?_, i4.trans hdeb, ?_⟩
      · rw [i3, g2]
        simp only [List.length_cons]
        omega
      · intro e he
        rcases List.mem_append.1 he with hm | hm
        · exact g3 e hm
        · exact i5 e hm

theorem updateRun_removed {t : Nat} :
    ∀ (dss : List (List TrackedDetection)) (s : InventoryStateManager),
      dictGet t s.active_tracks = none →
      (∀ ds ∈ dss, t ∉ detIds ds) →
      dictGet t (updateRun s dss).active_tracks = none ∧
      ∀ e ∈ updateRunEvents s dss, e.track_id ≠ t := by
  intro dss
  induction dss with
  | nil =>
      intro s hget _
      exact ⟨hget, by intro e he; simp [updateRunEvents] at he⟩
  | cons ds rest ih =>
      intro s hget habs
      obtain ⟨g1, g2⟩ := update_absent_removed hget (habs ds (List.mem_cons_self _ _))
      obtain ⟨i1, i2⟩ := ih (s.update ds).1 g1
        (fun ds2 h2 => habs ds2 (List.mem_cons_of_mem _ h2))
      rw [updateRun_cons, updateRunEvents_cons]
      refine ⟨i1, ?_⟩
      intro e he
      rcases List.mem_append.1 he with hm | hm
      · exact g2 e hm
      · exact i2 e hm

theorem updateRun_no_change {t : Nat} {c : String} :
    ∀ (dss : List (List TrackedDetection)) (s : InventoryStateManager),
      dictGet t s.active_tracks = some c →
      (dictKeys s.active_tracks).Nodup →
      (∀ ds ∈ dss, t ∉ detIds ds ∧
        (∀ d ∈ ds, ∃ cd, dictGet d.track_id s.active_tracks = some cd) ∧
        (∀ p ∈ s.active_tracks, p.1 ∈ detIds ds ∨ p.1 = t)) →
      s.disappeared_tracks t + dss.length < s.debounce_frames →
      (updateRun s dss).current_counts = s.current_counts ∧
      (updateRun s dss).active_tracks = s.active_tracks ∧
      updateRunEvents s dss = [] ∧
      (updateRun s dss).disappeared_tracks t =
        s.disappeared_tracks t + dss.length ∧
      (updateRun s dss).debounce_frames = s.debounce_frames := by
  intro dss
  induction dss with
  | nil =>
      intro s hget hnd _ _
      exact ⟨rfl, rfl, rfl, rfl, rfl⟩
  | cons ds rest ih =>
      intro s hget hnd hcalls hlen
      obtain ⟨hids, hall, hcov⟩ := hcalls ds (List.mem_cons_self _ _)
      have hlt : s.disappeared_tracks t + 1 < s.debounce_frames := by
        simp only [List.length_cons] at hlen
        omega
      have hcov2 : ∀ p ∈ s.active_tracks,
          p.1 ∈ detIds ds ∨
            (p.1 = t ∧ s.disappeared_tracks t + 1 < s.debounce_frames) := by
        intro p hp
        rcases hcov p hp with h | h
        · exact Or.inl h
        · exact Or.inr ⟨h, hlt⟩
      obtain ⟨g1, g2, g3, g4⟩ := update_no_change_step hnd hall hcov2
      have hmem : t ∈ dictKeys s.active_tracks :=
        List.mem_map_of_mem Prod.fst (dictGet_some_mem hget)
      have gdis : (s.update ds).1.disappeared_tracks t = s.disappeared_tracks t + 1 :=
        (g4 hmem).2 hids
      have hdeb := update_debounce s ds
      have hget2 : dictGet t (s.update ds).1.active_tracks = some c := by
        rw [g2]; exact hget
      have hnd2 : (dictKeys (s.update ds).1.active_tracks).Nodup := by
        rw [g2]; exact hnd
      obtain ⟨i1, i2, i3, i4, i5⟩ := ih (s.update ds).1 hget2 hnd2
        (by
          intro ds2 h2
          obtain ⟨k1, k2, k3⟩ := hcalls ds2 (List.mem_cons_of_mem _ h2)
          refine ⟨k1, ?_, ?_⟩
          · intro d hd
            rw [g2]
            exact k2 d hd
          · intro p hp
            rw [g2] at hp
            exact k3 p hp)
        (by
          rw [gdis, hdeb]
          simp only [List.length_cons] at hlen
          omega)
      rw [updateRun_cons, updateRunEvents_cons]
      refine ⟨i1.trans g1, i2.trans g2, ?_, ?_, i5.trans hdeb⟩
      · rw [g3, i3]
        rfl
      · rw [i4, gdis]
        simp only [List.length_cons]
        omega

theorem processDetection_inv {s : InventoryStateManager} {det : TrackedDetection}
    (h : Inv s) : Inv (processDetection s det).1 := by
  obtain ⟨hnd, hc⟩ := h
  rcases hg : dictGet det.track_id s.active_tracks with _ | c0
  · rw [processDetection_of_none hg]
    constructor
    · show (dictKeys (s.active_tracks ++ [(det.track_id, det.class_name)])).Nodup
      rw [dictKeys_append, List.nodup_append]
      refine ⟨hnd, by simp [dictKeys], ?_⟩
      intro a ha hb
      simp [dictKeys] at hb
      subst hb
      exact not_mem_keys_of_dictGet_eq_none hg ha
    · intro cls
      show updCount s.current_counts det.class_name
        (s.current_counts det.class_name + 1) cls =
          (classCount (s.active_tracks ++ [(det.track_id, det.class_name)]) cls : Int)
      rw [classCount_append]
      by_cases hcls : cls = det.class_name
      · rw [hcls]
        simp [updCount, classCount, hc det.class_name]
      · have hc2 : ¬ det.class_name = cls := fun he => hcls he.symm
        simp [updCount, hcls, classCount, hc2, hc cls]
  · rw [processDetection_of_some hg]
    exact ⟨hnd, hc⟩

theorem addPhase_inv {s : InventoryStateManager} {ds : List TrackedDetection}
    (h : Inv s) : Inv (addPhase s ds).1 := by
  induction ds generalizing s with
  | nil => exact h
  | cons det rest ih => exact ih (processDetection_inv h)

theorem update_inv {s : InventoryStateManager} {ds : List TrackedDetection}
    (h : Inv s) : Inv (s.update ds).1 := by
  obtain ⟨hnd1, hc1⟩ := @addPhase_inv _ ds h
  have hloop := @missLoop_inv (detIds ds) (addPhase s ds).1
    (addPhase s ds).1.active_tracks hnd1 hc1
    (fun p hp => dictGet_of_mem hnd1 hp) hnd1
  exact ⟨by rw [Inv] at *; rw [update_active]; exact hloop.1, by
    intro cls
    rw [update_counts, update_active]
    exact hloop.2 cls⟩

theorem initState_inv (machine_id : String) (debounce_frames : Nat) :
    Inv (initState machine_id debounce_frames) := by
  constructor
  · show (dictKeys ([] : List (Nat × String))).Nodup
    simp [dictKeys]
  · intro cls
    rfl

theorem updateRun_inv {s : InventoryStateManager} :
    ∀ (dss : List (List TrackedDetection)), Inv s → Inv (updateRun s dss) := by
  intro dss
  induction dss generalizing s with
  | nil => exact fun h => h
  | cons ds rest ih => exact fun h => ih (update_inv h)

theorem processDetection_nonneg {s : InventoryStateManager} {det : TrackedDetection}
    (h : NonnegCounts s) : NonnegCounts (processDetection s det).1 := by
  rcases hg : dictGet det.track_id s.active_tracks with _ | c0
  · rw [processDetection_of_none hg]
    intro cls
    show 0 ≤ updCount s.current_counts det.class_name
      (s.current_counts det.class_name + 1) cls
    by_cases hcls : cls = det.class_name
    · simp only [updCount, if_pos hcls]
      have := h det.class_name
      omega
    · simp only [updCount, if_neg hcls]
      exact h cls
  · rw [processDetection_of_some hg]
    exact h

theorem addPhase_nonneg {s : InventoryStateManager} {ds : List TrackedDetection}
    (h : NonnegCounts s) : NonnegCounts (addPhase s ds).1 := by
  induction ds generalizing s with
  | nil => exact h
  | cons det rest ih => exact ih (processDetection_nonneg h)

theorem processMissing_nonneg {ids : List Nat} {s : InventoryStateManager}
    {entry : Nat × String}
    (h : NonnegCounts s) : NonnegCounts (processMissing ids s entry).1 := by
  by_cases hp : entry.1 ∈ ids
  · rw [processMissing_present hp]; exact h
  · by_cases hfire : s.debounce_frames ≤ s.disappeared_tracks entry.1 + 1
    · rw [processMissing_fire hp hfire]
      intro cls
      show 0 ≤ updCount s.current_counts entry.2
        (max 0 (s.current_counts entry.2 - 1)) cls
      by_cases hcls : cls = entry.2
      · simp only [updCount, if_pos hcls]
        exact le_max_left 0 _
      · simp only [updCount, if_neg hcls]
        exact h cls
    · rw [processMissing_wait hp hfire]; exact h

theorem missLoop_nonneg {ids : List Nat} {s : InventoryStateManager}
    {snap : List (Nat × String)}
    (h : NonnegCounts s) : NonnegCounts (missLoop ids s snap).1 := by
  induction snap generalizing s with
  | nil => exact h
  | cons entry rest ih =>
      rw [missLoop_cons]
      exact ih (processMissing_nonneg h)

theorem update_nonneg {s : InventoryStateManager} {ds : List TrackedDetection}
    (h : NonnegCounts s) : NonnegCounts (s.update ds).1 := by
  intro cls
  rw [update_counts]
  exact missLoop_nonneg (addPhase_nonneg h) cls

theorem missLoop_lookup_mem_ids {ids : List Nat} {s : InventoryStateManager}
    {snap : List (Nat × String)} {t : Nat} (ht : t ∈ ids) :
    dictGet t (missLoop ids s snap).1.active_tracks = dictGet t s.active_tracks := by
  induction snap generalizing s with
  | nil => rfl
  | cons entry rest ih =>
      rw [missLoop_cons]
      by_cases hp : entry.1 ∈ ids
      · rw [ih, processMissing_present hp]
      · by_cases hfire : s.debounce_frames ≤ s.disappeared_tracks entry.1 + 1
        · rw [ih, processMissing_fire hp hfire]
          show dictGet t (dictErase entry.1 s.active_tracks) = _
          have hne : t ≠ entry.1 := by
            intro he
            exact hp (he ▸ ht)
          exact dictGet_erase_ne hne
        · rw [ih, processMissing_wait hp hfire]

theorem update_lookup_present {s : InventoryStateManager} {ds : List TrackedDetection}
    {d : TrackedDetection} (hd : d ∈ ds) :
    ∃ c, dictGet d.track_id (s.update ds).1.active_tracks = some c := by
  obtain ⟨c, hc⟩ := addPhase_mem_active (s := s) hd
  refine ⟨c, ?_⟩
  have hmem : d.track_id ∈ detIds ds :=
    List.mem_map_of_mem TrackedDetection.track_id hd
  rw [update_active, missLoop_lookup_mem_ids hmem]
  exact hc

theorem update_fire_counts {s : InventoryStateManager} {ds : List TrackedDetection}
    {t : Nat} {c : String}
    (hget : dictGet t s.active_tracks = some c)
    (hnd : (dictKeys s.active_tracks).Nodup)
    (hids : t ∉ detIds ds)
    (hge : s.debounce_frames ≤ s.disappeared_tracks t + 1)
    (hall : ∀ d ∈ ds, ∃ cd, dictGet d.track_id s.active_tracks = some cd)
    (hcov : ∀ p ∈ s.active_tracks, p.1 = t ∨ p.1 ∈ detIds ds) :
    (s.update ds).1.current_counts =
      updCount s.current_counts c (max 0 (s.current_counts c - 1)) := by
  have hadd := addPhase_all_active hall
  have hsnap : (addPhase s ds).1 = s := by rw [hadd]
  obtain ⟨l₁, l₂, hdec, h1, h2⟩ := dict_decomp hnd hget
  have h1in : ∀ p ∈ l₁, p.1 ∈ detIds ds := by
    intro p hp
    have hpm : p ∈ s.active_tracks := by
      rw [hdec]
      exact List.mem_append.2 (Or.inl hp)
    rcases hcov p hpm with h | h
    · exact absurd h (h1 p hp)
    · exact h
  have h2in : ∀ p ∈ l₂, p.1 ∈ detIds ds := by
    intro p hp
    have hpm : p ∈ s.active_tracks := by
      rw [hdec]
      exact List.mem_append.2 (Or.inr (List.mem_cons_of_mem _ hp))
    rcases hcov p hpm with h | h
    · exact absurd h (h2 p hp)
    · exact h
  have hloop := @missLoop_fire_counts (detIds ds) s l₁ l₂ t c
    h1in h2in hids hge
  rw [← hdec] at hloop
  rw [update_counts, hsnap, hloop.1]

theorem updateRun_append (s : InventoryStateManager)
    (a b : List (List TrackedDetection)) :
    updateRun s (a ++ b) = updateRun (updateRun s a) b := by
  induction a generalizing s with
  | nil => rfl
  | cons ds rest ih =>
      rw [List.cons_append, updateRun_cons, updateRun_cons, ih]

theorem updateRunEvents_append (s : InventoryStateManager)
    (a b : List (List TrackedDetection)) :
    updateRunEvents s (a ++ b) =
      updateRunEvents s a ++ updateRunEvents (updateRun s a) b := by
  induction a generalizing s with
  | nil => rfl
  | cons ds rest ih =>
      rw [List.cons_append, updateRunEvents_cons, updateRunEvents_cons, ih,
        updateRun_cons, List.append_assoc]

theorem meanAbsDiff_self (a : List ℚ) : meanAbsDiff a a = 0 := by
  have hz : List.zipWith (fun x y => |x - y|) a a = List.replicate a.length 0 := by
    induction a with
    | nil => rfl
    | cons x rest ih => simp [List.zipWith, ih, List.replicate]
  rw [meanAbsDiff, hz]
  simp

theorem detect_first {F : Type} (pre : F → List ℚ) (md : MotionDetector F)
    (f : F) (h : md.prev_frame = none) :
    (MotionDetector.detect pre md f).1 = true := by
  rw [MotionDetector.detect, h]

theorem detect_stored {F : Type} (pre : F → List ℚ) (md : MotionDetector F)
    (f : F) :
    (MotionDetector.detect pre md f).2.prev_frame = some (pre f) := by
  rw [MotionDetector.detect]
  rcases md.prev_frame with _ | prev
  · rfl
  · rfl

theorem detect_threshold {F : Type} (pre : F → List ℚ) (md : MotionDetector F)
    (f : F) :
    (MotionDetector.detect pre md f).2.threshold = md.threshold := by
  rw [MotionDetector.detect]
  rcases md.prev_frame with _ | prev
  · rfl
  · rfl

theorem detect_same_frame {F : Type} (pre : F → List ℚ) (md : MotionDetector F)
    (f : F) (hth : 0 < md.threshold) (hprev : md.prev_frame = some (pre f)) :
    (MotionDetector.detect pre md f).1 = false := by
  rw [MotionDetector.detect, hprev]
  simp only
  rw [meanAbsDiff_self]
  simp only [zero_div]
  exact decide_eq_false (by
    intro hlt
    exact absurd (lt_trans hth hlt) (lt_irrefl 0))

theorem adjust_detections_no_offset (p : PrivacyPipeline)
    (detections : List TrackedDetection) :
    p.adjust_detections detections none = detections := by
  rcases hro : p.roi with _ | r
  · simp [PrivacyPipeline.adjust_detections, hro]
  · simp [PrivacyPipeline.adjust_detections, hro]

/-- Claim C6 counterexample: with an empty pending event list, get_delta
returns None rather than a delta carrying the current counts snapshot
with an empty events list. -/
theorem get_delta_none_when_no_events :
    ((initState "machine-1" 10).get_delta).1 = none :=
  rfl

/-- Claim C6 (amended): get_delta returns None when no events are
pending and leaves the state untouched; when events are pending it
returns a delta carrying the machine id, the counts snapshot and
exactly the pending events, and clears the pending list; after any
get_delta call the pending list is empty. -/
theorem get_delta_spec (s : InventoryStateManager) :
    (s.pending_events = [] → s.get_delta = (none, s)) ∧
    (s.pending_events ≠ [] →
      s.get_delta =
        (some { machine_id := s.machine_id, inventory := s.current_counts,
                events := s.pending_events },
          { s with pending_events := [] })) ∧
    (s.get_delta).2.pending_events = [] := by
  by_cases h : s.pending_events = []
  · refine ⟨fun _ => ?_, fun hne => absurd h hne, ?_⟩
    · simp [InventoryStateManager.get_delta, h]
    · simp [InventoryStateManager.get_delta, h]
  · refine ⟨fun he => absurd he h, fun _ => ?_, ?_⟩
    · simp [InventoryStateManager.get_delta, h]
    · simp [InventoryStateManager.get_delta, h]

/-- Concrete instantiation of get_delta_spec on an empty-pending state
and on a state with one pending event. -/
theorem get_delta_spec_witness :
    (initState "m" 10).get_delta = (none, initState "m" 10) ∧
    witnessState.get_delta =
      (some { machine_id := witnessState.machine_id,
              inventory := witnessState.current_counts,
              events := witnessState.pending_events },
        { witnessState with pending_events := [] }) :=
  ⟨(get_delta_spec (initState "m" 10)).1 rfl,
   (get_delta_spec witnessState).2.1 (by decide)⟩

/-- Claim C10: get_delta changes only the pending event list, leaving
counts, active tracks, missing counters, machine id and debounce
setting untouched, and any returned delta holds exactly the counts
snapshot and the pending events of the drained state. -/
theorem get_delta_frame_conditions (s : InventoryStateManager) :
    (s.get_delta).2.current_counts = s.current_counts ∧
    (s.get_delta).2.active_tracks = s.active_tracks ∧
    (s.get_delta).2.disappeared_tracks = s.disappeared_tracks ∧
    (s.get_delta).2.machine_id = s.machine_id ∧
    (s.get_delta).2.debounce_frames = s.debounce_frames ∧
    (s.get_delta).2.pending_events = [] ∧
    ∀ dl, (s.get_delta).1 = some dl →
      dl.inventory = s.current_counts ∧ dl.events = s.pending_events ∧
        dl.machine_id = s.machine_id := by
  by_cases h : s.pending_events = []
  · refine ⟨?_, ?_, ?_, ?_, ?_, ?_, ?_⟩ <;>
      simp [InventoryStateManager.get_delta, h]
  · refine ⟨?_, ?_, ?_, ?_, ?_, ?_, ?_⟩
    · simp [InventoryStateManager.get_delta, h]
    · simp [InventoryStateManager.get_delta, h]
    · simp [InventoryStateManager.get_delta, h]
    · simp [InventoryStateManager.get_delta, h]
    · simp [InventoryStateManager.get_delta, h]
    · simp [InventoryStateManager.get_delta, h]
    · intro dl hdl
      simp [InventoryStateManager.get_delta, h] at hdl
      rw [← hdl]
      exact ⟨rfl, rfl, rfl⟩

/-- Concrete instantiation of get_delta_frame_conditions on a state
holding one pending event, with the returned delta spelled out. -/
theorem get_delta_frame_conditions_witness :
    (witnessState.get_delta).2.active_tracks = witnessState.active_tracks ∧
    ({ machine_id := witnessState.machine_id,
       inventory := witnessState.current_counts,
       events := witnessState.pending_events } : InventoryDelta).events =
      witnessState.pending_events :=
  ⟨(get_delta_frame_conditions witnessState).2.1,
   ((get_delta_frame_conditions witnessState).2.2.2.2.2.2
     { machine_id := witnessState.machine_id,
       inventory := witnessState.current_counts,
       events := witnessState.pending_events } rfl).2.1⟩

/-- Claim C7: the motion gate returns true on the first call after
construction or reset, returns false on a repeated identical frame for
any positive threshold, and replaces the stored comparison frame on
every call regardless of the decision. -/
theorem motion_gate_contract (F : Type) (pre : F → List ℚ)
    (md : MotionDetector F) (f g : F) :
    (md.prev_frame = none → (MotionDetector.detect pre md f).1 = true) ∧
    (MotionDetector.detect pre (MotionDetector.reset md) f).1 = true ∧
    (0 < md.threshold →
      (MotionDetector.detect pre (MotionDetector.detect pre md f).2 f).1 = false) ∧
    (MotionDetector.detect pre md g).2.prev_frame = some (pre g) := by
  refine ⟨fun h => detect_first pre md f h, ?_, ?_, detect_stored pre md g⟩
  · exact detect_first pre _ f rfl
  · intro hth
    apply detect_same_frame
    · rw [detect_threshold]
      exact hth
    · exact detect_stored pre md f

/-- Concrete instantiation of motion_gate_contract: first call true,
identical second frame false, frame stored. -/
theorem motion_gate_contract_witness :
    (MotionDetector.detect (fun _ : Unit => [1, 2, 3]) motionW ()).1 = true ∧
    (MotionDetector.detect (fun _ : Unit => [1, 2, 3])
      (MotionDetector.detect (fun _ : Unit => [1, 2, 3]) motionW ()).2 ()).1 =
        false ∧
    (MotionDetector.detect (fun _ : Unit => [1, 2, 3]) motionW ()).2.prev_frame =
      some [1, 2, 3] :=
  ⟨(motion_gate_contract Unit (fun _ => [1, 2, 3]) motionW () ()).1 rfl,
   (motion_gate_contract Unit (fun _ => [1, 2, 3]) motionW () ()).2.2.1
     (by norm_num [motionW]),
   (motion_gate_contract Unit (fun _ => [1, 2, 3]) motionW () ()).2.2.2⟩

/-- Claim C8 counterexample: a region update with negative width and
height is accepted: set_roi installs it in place of the previous valid
region, and the save_roi route persists it and answers ok instead of a
rejection. -/
theorem roi_update_not_validated :
    (priorPipeline.set_roi (some malformedRoi)).roi = some malformedRoi ∧
    (priorPipeline.set_roi (some malformedRoi)).roi ≠ priorPipeline.roi ∧
    (save_roi { x1 := 5, y1 := 5, x2 := 3, y2 := 2 }
      { roi := priorPipeline.roi }).2 = "ok" ∧
    (save_roi { x1 := 5, y1 := 5, x2 := 3, y2 := 2 }
      { roi := priorPipeline.roi }).1.roi = some malformedRoi := by
  refine ⟨rfl, ?_, rfl, rfl⟩
  decide

/-- Claim C8 (amended): region updates are not validated at all: set_roi
installs any given rectangle unconditionally and the save_roi route
stores the posted coordinates verbatim and reports ok. -/
theorem roi_update_always_accepted (p : PrivacyPipeline) (roi : Option Roi)
    (data : RoiRequest) (config : RoiConfig) :
    (p.set_roi roi).roi = roi ∧
    save_roi data config =
      ({ roi := some { x1 := data.x1, y1 := data.y1,
                       x2 := data.x2, y2 := data.y2 } }, "ok") :=
  ⟨rfl, rfl⟩

/-- Claim C4: the per-frame pipeline never translates detections back
to full-frame coordinates: the call site passes no offset argument, so
adjust_detections is the identity and the inventory update receives the
region-local bbox, not the bbox shifted by the region's top-left corner
(100, 50). -/
theorem process_frame_keeps_region_local_bbox :
    (∀ (p : PrivacyPipeline) (ds : List TrackedDetection),
      p.adjust_detections ds none = ds) ∧
    (DetectionService.process_frame (fun f _ => f) (fun _ => [1])
      (fun _ => [detExample]) svcExample ()).2 = [detExample] ∧
    (DetectionService.process_frame (fun f _ => f) (fun _ => [1])
      (fun _ => [detExample]) svcExample ()).2 ≠
      [{ detExample with bbox := [110, 70, 130, 90] }] := by
  refine ⟨adjust_detections_no_offset, by decide, by decide⟩

/-- Claim C9: within one update call every SNACK_ADDED event precedes
every SNACK_TAKEN event, and the returned list is exactly what the call
appends to the pending event list, in order. -/
theorem update_added_before_taken (s : InventoryStateManager)
    (ds : List TrackedDetection) :
    (∃ l₁ l₂, (s.update ds).2 = l₁ ++ l₂ ∧
      (∀ e ∈ l₁, e.type = EventType.SNACK_ADDED) ∧
      (∀ e ∈ l₂, e.type = EventType.SNACK_TAKEN)) ∧
    (s.update ds).1.pending_events = s.pending_events ++ (s.update ds).2 := by
  refine ⟨⟨(addPhase s ds).2,
    (missLoop (detIds ds) (addPhase s ds).1 (addPhase s ds).1.active_tracks).2,
    update_events s ds, ?_, ?_⟩, update_pending s ds⟩
  · intro e he
    exact (addPhase_events_shape s ds e he).1
  · intro e he
    exact (missLoop_events_taken _ _ _ e he).1

/-- Claim C5: the counts-equal-active-tracks invariant (with no
baseline) is preserved by update and holds in every reachable state,
and counts stay non-negative, removal clamping at 0 by max. -/
theorem counts_match_tracks_invariant (s : InventoryStateManager)
    (ds : List TrackedDetection) (machine_id : String) (debounce_frames : Nat)
    (dss : List (List TrackedDetection)) :
    (Inv s → Inv (s.update ds).1) ∧
    (NonnegCounts s → NonnegCounts (s.update ds).1) ∧
    Inv (updateRun (initState machine_id debounce_frames) dss) ∧
    ∀ cls, 0 ≤ (updateRun (initState machine_id debounce_frames) dss).current_counts cls := by
  refine ⟨update_inv, update_nonneg, updateRun_inv dss (initState_inv _ _), ?_⟩
  intro cls
  rw [(updateRun_inv dss (initState_inv machine_id debounce_frames)).2 cls]
  exact Int.natCast_nonneg _

/-- Concrete instantiation of counts_match_tracks_invariant after one
frame with one detection. -/
theorem counts_match_tracks_invariant_witness :
    Inv witnessState ∧ NonnegCounts witnessState :=
  ⟨(counts_match_tracks_invariant (initState "m" 10) [witnessDet] "m" 10 []).1
     (initState_inv "m" 10),
   (counts_match_tracks_invariant (initState "m" 10) [witnessDet] "m" 10 []).2.1
     (fun _ => le_refl 0)⟩

/-- Claim C1: a detection with a fresh track_id produces exactly one
SNACK_ADDED event for its class in that call, registers the track,
raises the class count by exactly 1 when nothing else changes in the
call, and no later call emits another SNACK_ADDED for that track_id
while the track stays registered. -/
theorem added_event_once {s : InventoryStateManager} {ds : List TrackedDetection}
    {d : TrackedDetection}
    (hd : d ∈ ds)
    (hnew : dictGet d.track_id s.active_tracks = none)
    (hnd : (detIds ds).Nodup) :
    AddedOnceSpec s ds d := by
  refine ⟨?_, ?_, ?_, ?_⟩
  · obtain ⟨b, hb⟩ := addPhase_filter_added hnew hd rfl hnd
    refine ⟨b, ?_⟩
    rw [update_events, List.filter_append, hb]
    have htaken : List.filter (fun e => e.track_id == d.track_id)
        (missLoop (detIds ds) (addPhase s ds).1
          (addPhase s ds).1.active_tracks).2 = [] := by
      apply List.filter_eq_nil_iff.2
      intro e he
      simp only [beq_iff_eq]
      intro he2
      have hni := (missLoop_events_taken _ _ _ e he).2.2
      rw [he2] at hni
      exact hni (List.mem_map_of_mem TrackedDetection.track_id hd)
    rw [htaken]
    simp
  · exact update_lookup_present hd
  · intro hoth hcov
    have hcounts := addPhase_counts_only_new hnew hd rfl hnd
      (fun d2 hd2 hne => hoth d2 hd2 hne)
    obtain ⟨new, hnewl, hmemnew⟩ := addPhase_active_append s ds
    have hall : ∀ p ∈ (addPhase s ds).1.active_tracks, p.1 ∈ detIds ds := by
      intro p hp
      rw [hnewl] at hp
      rcases List.mem_append.1 hp with h1 | h1
      · exact hcov p h1
      · exact hmemnew p h1
    obtain ⟨m1, m2, m3⟩ := @missLoop_all_present (detIds ds) (addPhase s ds).1
      (addPhase s ds).1.active_tracks hall
    constructor
    · rw [update_counts, m2, hcounts]
      simp [updCount]
    · intro cls hcls
      rw [update_counts, m2, hcounts]
      simp [updCount, hcls]
  · intro s2 ds2 c2 hc2 e he
    exact update_no_added_of_active hc2 e he

/-- Concrete instantiation of added_event_once: a fresh apple track in
a fresh manager. -/
theorem added_event_once_witness :
    AddedOnceSpec (initState "m" 10) [witnessDet] witnessDet :=
  added_event_once (List.mem_cons_self _ _) rfl (by decide)

/-- Claim C2: a tracked item absent for debounce_frames consecutive
calls stays silent through the first debounce_frames - 1 of them, then
the threshold call emits exactly one SNACK_TAKEN event with the
floored-at-0 decrement, destroys the TrackState, and no later call
mentions the track again while it stays absent. -/
theorem debounce_taken_at_threshold {s : InventoryStateManager}
    {dss : List (List TrackedDetection)} {dsD : List TrackedDetection}
    {t : Nat} {c : String}
    (hget : dictGet t s.active_tracks = some c)
    (hnd : (dictKeys s.active_tracks).Nodup)
    (hdis : s.disappeared_tracks t = 0)
    (habs : ∀ ds ∈ dss, t ∉ detIds ds)
    (habsD : t ∉ detIds dsD)
    (hlen : dss.length + 1 = s.debounce_frames) :
    DebounceRemovalSpec s dss dsD t c := by
  obtain ⟨r1, r2, r3, r4, r5⟩ := updateRun_absent dss s hget hnd habs (by omega)
  have hge : (updateRun s dss).debounce_frames ≤
      (updateRun s dss).disappeared_tracks t + 1 := by
    rw [r3, r4, hdis]
    omega
  obtain ⟨⟨b, hb⟩, f2, f3⟩ := update_fire_step r1 r2 habsD hge
  refine ⟨r5, ⟨b, hb⟩, f2, f3, ?_, ?_⟩
  · intro hall hcov
    exact update_fire_counts r1 r2 habsD hge hall hcov
  · intro dss2 habs2
    exact (updateRun_removed dss2 _ f2 habs2).2

/-- Concrete instantiation of debounce_taken_at_threshold: the apple
track of witnessState, absent in nine empty frames and then in a tenth. -/
theorem debounce_taken_at_threshold_witness :
    DebounceRemovalSpec witnessState (List.replicate 9 []) [] 1 "apple" :=
  debounce_taken_at_threshold rfl (by decide) rfl
    (by
      intro ds hds
      rw [List.eq_of_mem_replicate hds]
      simp [detIds])
    (by simp [detIds])
    (by decide)

/-- Claim C3: a tracked item absent for fewer than debounce_frames
calls and then reported again produces no event in any of those calls,
leaves every class count and the active tracks unchanged, and has its
missing counter reset to 0. -/
theorem debounce_suppression_on_reappear {s : InventoryStateManager}
    {dss : List (List TrackedDetection)} {dsR : List TrackedDetection}
    {t : Nat} {c : String}
    (hget : dictGet t s.active_tracks = some c)
    (hnd : (dictKeys s.active_tracks).Nodup)
    (habs : ∀ ds ∈ dss, t ∉ detIds ds ∧
      (∀ d ∈ ds, ∃ cd, dictGet d.track_id s.active_tracks = some cd) ∧
      (∀ p ∈ s.active_tracks, p.1 ∈ detIds ds ∨ p.1 = t))
    (hlen : s.disappeared_tracks t + dss.length < s.debounce_frames)
    (htR : t ∈ detIds dsR)
    (hallR : ∀ d ∈ dsR, ∃ cd, dictGet d.track_id s.active_tracks = some cd)
    (hcovR : ∀ p ∈ s.active_tracks, p.1 ∈ detIds dsR) :
    ReappearNoChangeSpec s dss dsR t := by
  obtain ⟨n1, n2, n3, n4, n5⟩ := updateRun_no_change dss s hget hnd habs hlen
  have hnd1 : (dictKeys (updateRun s dss).active_tracks).Nodup := by
    rw [n2]; exact hnd
  have hall1 : ∀ d ∈ dsR, ∃ cd,
      dictGet d.track_id (updateRun s dss).active_tracks = some cd := by
    intro d hd
    rw [n2]
    exact hallR d hd
  have hcov1 : ∀ p ∈ (updateRun s dss).active_tracks,
      p.1 ∈ detIds dsR ∨
        (p.1 = t ∧ (updateRun s dss).disappeared_tracks t + 1 <
          (updateRun s dss).debounce_frames) := by
    intro p hp
    rw [n2] at hp
    exact Or.inl (hcovR p hp)
  obtain ⟨g1, g2, g3, g4⟩ := update_no_change_step hnd1 hall1 hcov1
  have hmem : t ∈ dictKeys (updateRun s dss).active_tracks := by
    rw [n2]
    exact List.mem_map_of_mem Prod.fst (dictGet_some_mem hget)
  have hco : updateRun s (dss ++ [dsR]) = ((updateRun s dss).update dsR).1 := by
    rw [updateRun_append]
    rfl
  refine ⟨?_, ?_, ?_, ?_⟩
  · rw [updateRunEvents_append, n3]
    show [] ++ (((updateRun s dss).update dsR).2 ++
      updateRunEvents ((updateRun s dss).update dsR).1 []) = []
    rw [g3]
    rfl
  · rw [hco, g1, n1]
  · rw [hco, g2, n2]
  · rw [hco]
    exact (g4 hmem).1 htR

/-- Concrete instantiation of debounce_suppression_on_reappear: the
apple track absent in nine empty frames and reported again in the
tenth. -/
theorem debounce_suppression_on_reappear_witness :
    ReappearNoChangeSpec witnessState (List.replicate 9 []) [witnessDet] 1 := by
  have hact : witnessState.active_tracks = [(1, "apple")] := rfl
  refine debounce_suppression_on_reappear (c := "apple") rfl (by decide)
    ?_ (by decide) (by decide) ?_ ?_
  · intro ds hds
    rw [List.eq_of_mem_replicate hds]
    refine ⟨by simp [detIds], by simp, ?_⟩
    intro p hp
    rw [hact] at hp
    simp at hp
    right
    rw [hp]
  · intro d hd
    simp at hd
    rw [hd]
    exact ⟨"apple", rfl⟩
  · intro p hp
    rw [hact] at hp
    simp at hp
    rw [hp]
    decide

end FoodInsight
